import Mathlib

/-!
# task-runner: the run engine of `main.go`

A shallow embedding of `Command.Run`, `Request.Run` and `HandleRecord`.

* The shell (`exec.Command("/bin/sh", "-c", ...)` followed by `cmd.Output()`) is the only
  external effect that decides anything. It is a parameter: a function from the state of the
  outside world, the command line, the working directory and the job environment to what
  `cmd.Output()` returned, together with the next state of the world.
* A Go `map[string]string` is a finite lookup function; the nil map is a separate value,
  because reading it is allowed and writing it panics.
* A Go panic is the result `none`.
* The `fmt.Printf` lines only write diagnostics and are left out.
-/

namespace TaskRunner

set_option linter.dupNamespace false

/-- The struct `Command` of `main.go`; the defaults are Go's zero values, which is also what
`json.Unmarshal` leaves in a field the record does not mention. `Duration` is the measured
time as reported by the clock (the source stores it as seconds in a `float64`); `ExitCode`
is a Go `int`, on which no arithmetic is done. -/
structure Command where
  Title : String := ""
  Slug : String := ""
  Command : String := ""
  Check : Bool := false
  FailMessage : String := ""
  RunOnFail : Bool := false
  IncludeOutput : Bool := false
  IncludeInEnv : String := ""
  Completed : Bool := false
  Duration : Int := 0
  ExitCode : Int := 0
  Output : String := ""
deriving DecidableEq, Repr

/-- A value of Go type `map[string]string`: `nil` is the nil map, `mk m` an allocated map
with the entries of `m`. -/
inductive Env where
  | nil
  | mk (m : String → Option String)

/-- The read `val, ok := env[k]`: `none` is `ok = false`. Reading the nil map is allowed and
finds nothing. -/
def Env.lookup : Env → String → Option String
  | Env.nil, _ => none
  | Env.mk m, k => m k

/-- The write `env[k] = v`. Writing the nil map panics (`none`); an allocated map is updated
in place, so every holder of the map sees the new entry. -/
def Env.store : Env → String → String → Option Env
  | Env.nil, _, _ => none
  | Env.mk m, k, v => some (Env.mk (fun j => if j = k then some v else m j))

/-- Whether the map is allocated (not the nil map). -/
def Env.present : Env → Bool
  | Env.nil => false
  | Env.mk _ => true

/-- The struct `Request`. -/
structure Request where
  Env : Env := Env.nil
  Commands : List Command := []

/-- The type `Conclusion` with its eight constants. -/
inductive Conclusion where
  | ActionRequired
  | Cancelled
  | Failure
  | Neutral
  | Success
  | Skipped
  | Stale
  | TimedOut
deriving DecidableEq, Repr

/-- The string value of each `Conclusion` constant. -/
def Conclusion.text : Conclusion → String
  | Conclusion.ActionRequired => "action_required"
  | Conclusion.Cancelled => "cancelled"
  | Conclusion.Failure => "failure"
  | Conclusion.Neutral => "neutral"
  | Conclusion.Success => "success"
  | Conclusion.Skipped => "skipped"
  | Conclusion.Stale => "stale"
  | Conclusion.TimedOut => "timed_out"

/-- The struct `Response`. `Request` holds the same map as the request that was run, so its
`Env` is the map as the run left it. -/
structure Response where
  Conclusion : Conclusion
  Steps : List Command
  Request : Request

/-- What `cmd.Output()` returned.
* `clean stdout elapsed`: a nil error (the process exited with status 0); `elapsed` is
  `stop.Sub(start)`.
* `exitError code text`: an `*exec.ExitError` whose `ExitCode()` is `code` and whose
  `Error()` is `text`.
* `fault text`: any other error (the shell could not be started, ...), `Error()` is `text`. -/
inductive ExecResult where
  | clean (stdout : String) (elapsed : Int)
  | exitError (code : Int) (text : String)
  | fault (text : String)
deriving DecidableEq, Repr

/-- The shell: from the state of the world, the command line, `cmd.Dir` and the job
environment laid over the inherited one, to the result of `cmd.Output()` and the next state
of the world. -/
abbrev Shell (σ : Type) := σ → String → String → (String → Option String) → ExecResult × σ

/-- Lines 59-62 of `Command.Run`: the working directory. -/
def Command.dir (r : TaskRunner.Command) (env : Env) : String :=
  match env.lookup "DIR" with
  | some val => if r.Slug != "clone" && r.Slug != "git_config" then val else "/"
  | none => "/"

/-- Lines 74-78 of `Command.Run`: the receiver after a process-exit error of code `code`. -/
def Command.onExitError (r : TaskRunner.Command) (code : Int) : TaskRunner.Command :=
  let r1 := { r with ExitCode := code }
  if r1.ExitCode != 0 then { r1 with Output := r1.Output ++ r1.FailMessage } else r1

/-- Lines 84-93 of `Command.Run`: the receiver after a clean exit that printed `stdout` and
took `elapsed`. -/
def Command.onClean (r : TaskRunner.Command) (stdout : String) (elapsed : Int) :
    TaskRunner.Command :=
  let r1 := { r with Duration := elapsed, ExitCode := 0, Completed := true }
  if r1.IncludeOutput then { r1 with Output := r1.Output ++ stdout } else r1

/-- The method `Command.Run`. The receiver is updated in place and returned; the second
component is the returned `error` (`none` is nil, `some text` an error whose text is
`text`). -/
def Command.Run {σ : Type} (sh : Shell σ) (w : σ) (r : TaskRunner.Command) (env : Env) :
    (TaskRunner.Command × Option String) × σ :=
  match sh w r.Command (r.dir env) env.lookup with
  | (ExecResult.exitError code text, w1) => ((r.onExitError code, some text), w1)
  | (ExecResult.fault text, w1) => ((r, some text), w1)
  | (ExecResult.clean stdout elapsed, w1) => ((r.onClean stdout elapsed, none), w1)

/-- The variables of the loop of `Request.Run`: `skipNonEssential`, `result`, the map
`t.Env`, and the state of the world. -/
structure LoopState (σ : Type) where
  skipNonEssential : Bool
  result : List Command
  env : Env
  world : σ

/-- Lines 107-114: the `Command` built when `Command.Run` returned an error of text `text`;
the fields it does not name are Go's zero values. -/
def Request.synthetic (command : Command) (text : String) : Command :=
  { Title := command.Title, Slug := command.Slug, Command := command.Command,
    Check := command.Check, Output := text, ExitCode := 1 }

/-- The step appended to `result` (lines 105-118): the step `Command.Run` returned, or, when
it returned an error, a fresh `Command` with four fields of the loop variable (which
`Command.Run` has updated in place by then), the error text and exit code 1. -/
def Request.resultStep (r : Command) (err : Option String) : Command :=
  match err with
  | some text => Request.synthetic r text
  | none => r

/-- Line 124: the condition under which `skipNonEssential` is set. -/
def Request.setsSkip (step : Command) : Bool :=
  (step.Slug == "terraform_plan" && step.ExitCode != 0 && step.ExitCode != 2) ||
    (step.Slug != "terraform_plan" && step.ExitCode != 0)

/-- Line 103: whether the loop executes `command` in the state `st`. -/
def Request.selected {σ : Type} (st : LoopState σ) (command : Command) : Bool :=
  !st.skipNonEssential || command.RunOnFail

/-- One iteration of the loop of `Request.Run` (lines 101-128) on the loop variable
`command`. `none` is the panic of line 121 on a nil map. -/
def Request.iterate {σ : Type} (sh : Shell σ) (st : LoopState σ) (command : Command) :
    Option (LoopState σ) :=
  if Request.selected st command then
    match Command.Run sh st.world command st.env with
    | ((r, err), w1) =>
      let step := Request.resultStep r err
      let result := st.result ++ [step]
      match (if step.IncludeInEnv != "" then st.env.store step.IncludeInEnv step.Output
             else some st.env) with
      | none => none
      | some env1 =>
        some { skipNonEssential := if Request.setsSkip step then true else st.skipNonEssential,
               result := result, env := env1, world := w1 }
  else some st

/-- The loop of `Request.Run` over the commands that remain. -/
def Request.loop {σ : Type} (sh : Shell σ) : LoopState σ → List Command → Option (LoopState σ)
  | st, [] => some st
  | st, command :: rest =>
    match Request.iterate sh st command with
    | none => none
    | some st1 => Request.loop sh st1 rest

/-- What a call of `Request.Run` leaves behind: the two returned values, the map `t.Env`
after the run, and the state of the world. -/
structure RunResult (σ : Type) where
  success : Bool
  steps : List Command
  env : Env
  world : σ

/-- Lines 98-99: the loop variables before the first iteration. -/
def Request.start {σ : Type} (w : σ) (t : Request) : LoopState σ :=
  { skipNonEssential := false, result := [], env := t.Env, world := w }

/-- The method `Request.Run`; `none` when the run panics. -/
def Request.Run {σ : Type} (sh : Shell σ) (w : σ) (t : Request) : Option (RunResult σ) :=
  match Request.loop sh (Request.start w t) t.Commands with
  | none => none
  | some st => some { success := !st.skipNonEssential, steps := st.result, env := st.env,
                      world := st.world }

/-- The part of `events.SQSMessage` that `HandleRecord` reads. -/
structure SQSMessage where
  Body : String

/-- The function `HandleRecord`. `unmarshal` is `json.Unmarshal` into a `Request`
(`Except.error` is its error). The result is `none` when the run panics, `Except.error` when
the body does not parse, and the response otherwise. -/
def HandleRecord {σ : Type} (unmarshal : String → Except String Request) (sh : Shell σ) (w : σ)
    (msg : SQSMessage) : Option (Except String Response × σ) :=
  match unmarshal msg.Body with
  | Except.error e => some (Except.error e, w)
  | Except.ok request =>
    match Request.Run sh w request with
    | none => none
    | some res =>
      let conclusion := if res.success then Conclusion.Success else Conclusion.Failure
      some (Except.ok { Conclusion := conclusion, Steps := res.steps,
                        Request := { Env := res.env, Commands := request.Commands } }, res.world)

/-- The loop variables of `Request.Run` when the loop has processed the commands at positions
`0 .. i-1` (and none yet at position `i`); `none` if the run has panicked by then. -/
def Request.stateAt {σ : Type} (sh : Shell σ) (w : σ) (t : Request) (i : Nat) :
    Option (LoopState σ) :=
  Request.loop sh (Request.start w t) (t.Commands.take i)

/-- The external effect of executing `command` in the state `st`: what `cmd.Output()` returns
there. -/
def Request.shellResult {σ : Type} (sh : Shell σ) (st : LoopState σ) (command : Command) :
    ExecResult × σ :=
  sh st.world command.Command (command.dir st.env) st.env.lookup

/-- The step that executing `command` in the state `st` appends to `result`. -/
def Request.entry {σ : Type} (sh : Shell σ) (st : LoopState σ) (command : Command) : Command :=
  Request.resultStep (Command.Run sh st.world command st.env).1.1
    (Command.Run sh st.world command st.env).1.2

/-- How an entry of the result sequence relates to the job step it comes from: the step has
`RunOnFail` set and the entry carries its title, slug, command and check. -/
def Request.FromRunOnFail (e c : Command) : Prop :=
  c.RunOnFail = true ∧ e.Title = c.Title ∧ e.Slug = c.Slug ∧ e.Command = c.Command ∧
    e.Check = c.Check

instance (e c : Command) : Decidable (Request.FromRunOnFail e c) := by
  unfold Request.FromRunOnFail
  infer_instance

/-! ## The loop with its cells made explicit

`Command.Run` has a pointer receiver and assigns through it, and the loop of `Request.Run`
calls it on the range variable. The definitions below keep the `Command` cells the run can
reach in a store, so that which cell an assignment reaches is part of the definition. -/

/-- Where a `*Command` of `Request.Run` can point: the range variable `command`, or the
element at an index of the slice `t.Commands`. -/
inductive Ref where
  | loopVar
  | element (i : Nat)

/-- The `Command` cells of a run: the backing array of `t.Commands` and the range variable
`command`. -/
structure Store where
  Commands : List Command
  command : Command

/-- The read `*r`; an index outside the slice panics (`none`). -/
def Store.read (m : Store) : Ref → Option Command
  | Ref.loopVar => some m.command
  | Ref.element i => m.Commands[i]?

/-- The assignment `*r = c`. -/
def Store.write (m : Store) : Ref → Command → Store
  | Ref.loopVar, c => { m with command := c }
  | Ref.element i, c => { m with Commands := m.Commands.set i c }

/-- The method `Command.Run` on a receiver `r` that points into the store: it computes what
`Command.Run` computes on the value `*r`, and its assignments to `r.ExitCode`, `r.Output`,
`r.Duration` and `r.Completed` reach the cell `r` points to. The pointer it returns is `r`
itself. -/
def Command.RunAt {σ : Type} (sh : Shell σ) (w : σ) (m : Store) (r : Ref) (env : Env) :
    Option ((Store × Option String) × σ) :=
  match m.read r with
  | none => none
  | some c =>
    match Command.Run sh w c env with
    | ((c1, err), w1) => some ((m.write r c1, err), w1)

/-- One iteration of the loop of `Request.Run` at position `i`, on the store: line 101 copies
`t.Commands[i]` into the range variable, line 104 calls `Command.Run` with the address of
the range variable as receiver, and the step appended is read from the range variable, either
whole (`*step` with `step` the returned receiver) or field by field into the fresh struct of
lines 107-114. -/
def Request.iterateCells {σ : Type} (sh : Shell σ) (st : LoopState σ) (m : Store) (i : Nat) :
    Option (LoopState σ × Store) :=
  match m.read (Ref.element i) with
  | none => none
  | some c =>
    let m0 := m.write Ref.loopVar c
    if Request.selected st m0.command then
      match Command.RunAt sh st.world m0 Ref.loopVar st.env with
      | none => none
      | some ((m1, err), w1) =>
        let step := Request.resultStep m1.command err
        let result := st.result ++ [step]
        match (if step.IncludeInEnv != "" then st.env.store step.IncludeInEnv step.Output
               else some st.env) with
        | none => none
        | some env1 =>
          some ({ skipNonEssential :=
                    if Request.setsSkip step then true else st.skipNonEssential,
                  result := result, env := env1, world := w1 }, m1)
    else some (st, m0)

/-- The loop of `Request.Run` on the store: `n` more iterations, from position `i` on. -/
def Request.loopCells {σ : Type} (sh : Shell σ) :
    LoopState σ × Store → Nat → Nat → Option (LoopState σ × Store)
  | s, _, 0 => some s
  | s, i, n + 1 =>
    match Request.iterateCells sh s.1 s.2 i with
    | none => none
    | some s1 => Request.loopCells sh s1 (i + 1) n

/-- The method `Request.Run` on the store: the length of the slice is read once, the loop
runs over its positions, and besides what `Request.Run` returns the result holds the request
as the run leaves it, with the map `t.Env` and the slice `t.Commands` as they then are. -/
def Request.RunCells {σ : Type} (sh : Shell σ) (w : σ) (t : Request) :
    Option (RunResult σ × Request) :=
  match Request.loopCells sh (Request.start w t, { Commands := t.Commands, command := {} }) 0
      t.Commands.length with
  | none => none
  | some (st, m) =>
    some ({ success := !st.skipNonEssential, steps := st.result, env := st.env,
            world := st.world }, { Env := st.env, Commands := m.Commands })

/-! ## Concrete shells and jobs used to evaluate the definitions -/

/-- A shell that knows a few command lines: `exit 1`, `exit 2` and `exit 3` end with that
status, `echo ok` prints `ok`, and every other command line ends cleanly with no output. -/
def demoShell : Shell Unit := fun _ cmd _ _ =>
  if cmd = "exit 1" then (ExecResult.exitError 1 "exit status 1", ())
  else if cmd = "exit 2" then (ExecResult.exitError 2 "exit status 2", ())
  else if cmd = "exit 3" then (ExecResult.exitError 3 "exit status 3", ())
  else if cmd = "echo ok" then (ExecResult.clean "ok\n" 5, ())
  else (ExecResult.clean "" 1, ())

/-- A `terraform_plan` step whose command ends with exit status 2. -/
def planStep : Command := { Title := "plan", Slug := "terraform_plan", Command := "exit 2" }

/-- An ordinary step whose command ends cleanly. -/
def applyStep : Command := { Title := "apply", Slug := "apply", Command := "echo ok" }

/-- The job `{"env": {}, "commands": [plan, apply]}`. -/
def planJob : Request := { Env := Env.mk (fun _ => none), Commands := [planStep, applyStep] }

/-- A step whose command ends with exit status 1. -/
def failStep : Command := { Title := "test", Slug := "test", Command := "exit 1" }

/-- A step that runs after a failure and puts its output into the environment. -/
def reportStep : Command :=
  { Title := "report", Slug := "report", Command := "echo ok", RunOnFail := true,
    IncludeOutput := true, IncludeInEnv := "X" }

/-- The job `{"commands": [test, report]}`: the record has no `env`, so the map is nil. -/
def noEnvJob : Request := { Env := Env.nil, Commands := [failStep, reportStep] }

/-- The job `{"env": {}, "commands": [test, apply, report]}`. -/
def failJob : Request :=
  { Env := Env.mk (fun _ => none), Commands := [failStep, applyStep, reportStep] }

/-- A step that arrives with text already in its `output` field. -/
def staleStep : Command :=
  { Title := "T", Slug := "test", Command := "echo ok", IncludeOutput := true, Output := "old" }

/-- The job `{"env": {}, "commands": [T]}` where `T` arrives with `"output": "old"`. -/
def staleJob : Request := { Env := Env.mk (fun _ => none), Commands := [staleStep] }

/-- A step that ends cleanly and puts its output into the environment under `X`. -/
def exportStep : Command :=
  { Title := "export", Slug := "export", Command := "echo ok", IncludeOutput := true,
    IncludeInEnv := "X" }

/-- The job `{"env": {"X": "before"}, "commands": [export, apply]}`. -/
def exportJob : Request :=
  { Env := Env.mk (fun k => if k = "X" then some "before" else none),
    Commands := [exportStep, applyStep] }

/-- A failing step that has a fail message and names the key `X` in `IncludeInEnv`. -/
def brokenStep : Command :=
  { Title := "broken", Slug := "test", Command := "exit 1", FailMessage := "boom",
    IncludeInEnv := "X" }

/-- The job `{"env": {}, "commands": [broken, apply]}`. -/
def brokenJob : Request :=
  { Env := Env.mk (fun _ => none), Commands := [brokenStep, applyStep] }

/-- The job `{"commands": []}`. -/
def emptyJob : Request := { Env := Env.nil, Commands := [] }

/-- The job `{"commands": [export]}`: no `env`, and the one step names a key in
`IncludeInEnv`. -/
def noEnvExportJob : Request := { Env := Env.nil, Commands := [exportStep] }

/-- A `clone` step. -/
def cloneStep : Command := { Title := "clone", Slug := "clone", Command := "echo ok" }

/-- An env whose only entry is `DIR=/tmp/repo`. -/
def dirEnv : Env := Env.mk (fun k => if k = "DIR" then some "/tmp/repo" else none)

/-- A shell that cannot start any process: `cmd.Output()` returns an error that is not an
`*exec.ExitError`. -/
def faultShell : Shell Unit := fun _ _ _ _ =>
  (ExecResult.fault "fork/exec /bin/sh: no such file or directory", ())

/-- A step that runs after a failure and names no key. -/
def cleanupStep : Command :=
  { Title := "cleanup", Slug := "cleanup", Command := "echo ok", RunOnFail := true }

/-- The job `{"env": {"X": "before"}, "commands": [export, broken, export, cleanup]}`: the
first step writes `X`; the second names `X` and fails; the third names `X` and is skipped;
the fourth runs on failure. -/
def overwriteJob : Request :=
  { Env := Env.mk (fun k => if k = "X" then some "before" else none),
    Commands := [exportStep, brokenStep, exportStep, cleanupStep] }

/-! ## The executor -/

theorem onExitError_fields (r : Command) (code : Int) :
    (r.onExitError code).Title = r.Title ∧ (r.onExitError code).Slug = r.Slug ∧
    (r.onExitError code).Command = r.Command ∧ (r.onExitError code).Check = r.Check := by
  unfold Command.onExitError
  by_cases h : code = 0 <;> simp [h]

theorem synthetic_onExitError (r : Command) (code : Int) (text : String) :
    Request.synthetic (r.onExitError code) text = Request.synthetic r text := by
  obtain ⟨h1, h2, h3, h4⟩ := onExitError_fields r code
  simp [Request.synthetic, h1, h2, h3, h4]

theorem setsSkip_synthetic (r : Command) (text : String) :
    Request.setsSkip (Request.synthetic r text) = true := by
  by_cases h : r.Slug = "terraform_plan" <;> simp [Request.setsSkip, Request.synthetic, h]

theorem setsSkip_onClean (r : Command) (out : String) (el : Int) :
    Request.setsSkip (r.onClean out el) = false := by
  have h : (r.onClean out el).ExitCode = 0 := by
    unfold Command.onClean
    by_cases hi : r.IncludeOutput = true <;> simp [hi]
  simp [Request.setsSkip, h]

theorem onClean_includeInEnv (r : Command) (out : String) (el : Int) :
    (r.onClean out el).IncludeInEnv = r.IncludeInEnv := by
  unfold Command.onClean
  by_cases hi : r.IncludeOutput = true <;> simp [hi]

/-! ## One iteration, by what the shell returned -/

theorem iterate_not_selected {σ : Type} (sh : Shell σ) (st : LoopState σ) (c : Command)
    (h : Request.selected st c = false) : Request.iterate sh st c = some st := by
  simp [Request.iterate, h]

theorem iterate_exitError {σ : Type} (sh : Shell σ) (st : LoopState σ) (c : Command)
    (code : Int) (text : String) (h : Request.selected st c = true)
    (hsh : (Request.shellResult sh st c).1 = ExecResult.exitError code text) :
    Request.iterate sh st c = some
      { skipNonEssential := true, result := st.result ++ [Request.synthetic c text],
        env := st.env, world := (Request.shellResult sh st c).2 } := by
  unfold Request.shellResult at hsh ⊢
  rcases hs : sh st.world c.Command (c.dir st.env) st.env.lookup with ⟨o, w1⟩
  rw [hs] at hsh
  simp only at hsh
  subst hsh
  simp [Request.iterate, h, Command.Run, hs, Request.resultStep, synthetic_onExitError,
    setsSkip_synthetic]
  simp [Request.synthetic]

theorem iterate_fault {σ : Type} (sh : Shell σ) (st : LoopState σ) (c : Command)
    (text : String) (h : Request.selected st c = true)
    (hsh : (Request.shellResult sh st c).1 = ExecResult.fault text) :
    Request.iterate sh st c = some
      { skipNonEssential := true, result := st.result ++ [Request.synthetic c text],
        env := st.env, world := (Request.shellResult sh st c).2 } := by
  unfold Request.shellResult at hsh ⊢
  rcases hs : sh st.world c.Command (c.dir st.env) st.env.lookup with ⟨o, w1⟩
  rw [hs] at hsh
  simp only at hsh
  subst hsh
  simp [Request.iterate, h, Command.Run, hs, Request.resultStep, setsSkip_synthetic]
  simp [Request.synthetic]

theorem iterate_clean {σ : Type} (sh : Shell σ) (st : LoopState σ) (c : Command)
    (out : String) (el : Int) (h : Request.selected st c = true)
    (hsh : (Request.shellResult sh st c).1 = ExecResult.clean out el) :
    Request.iterate sh st c =
      (if c.IncludeInEnv != "" then st.env.store c.IncludeInEnv (c.onClean out el).Output
       else some st.env).map (fun env1 =>
        { skipNonEssential := st.skipNonEssential, result := st.result ++ [c.onClean out el],
          env := env1, world := (Request.shellResult sh st c).2 }) := by
  unfold Request.shellResult at hsh ⊢
  rcases hs : sh st.world c.Command (c.dir st.env) st.env.lookup with ⟨o, w1⟩
  rw [hs] at hsh
  simp only at hsh
  subst hsh
  simp only [Request.iterate, h, Command.Run, hs, Request.resultStep, setsSkip_onClean,
    onClean_includeInEnv, if_true]
  split <;> simp_all

theorem shellResult_cases {σ : Type} (sh : Shell σ) (st : LoopState σ) (c : Command) :
    (∃ out el, (Request.shellResult sh st c).1 = ExecResult.clean out el) ∨
    (∃ text, (∃ code, (Request.shellResult sh st c).1 = ExecResult.exitError code text) ∨
      (Request.shellResult sh st c).1 = ExecResult.fault text) := by
  rcases h : (Request.shellResult sh st c).1 with _ | _ | _
  · exact Or.inl ⟨_, _, rfl⟩
  · exact Or.inr ⟨_, Or.inl ⟨_, rfl⟩⟩
  · exact Or.inr ⟨_, Or.inr rfl⟩

theorem iterate_error {σ : Type} (sh : Shell σ) (st : LoopState σ) (c : Command)
    (text : String) (h : Request.selected st c = true)
    (hsh : (∃ code, (Request.shellResult sh st c).1 = ExecResult.exitError code text) ∨
      (Request.shellResult sh st c).1 = ExecResult.fault text) :
    Request.iterate sh st c = some
      { skipNonEssential := true, result := st.result ++ [Request.synthetic c text],
        env := st.env, world := (Request.shellResult sh st c).2 } := by
  rcases hsh with ⟨code, hc⟩ | hf
  · exact iterate_exitError sh st c code text h hc
  · exact iterate_fault sh st c text h hf

theorem entry_clean {σ : Type} (sh : Shell σ) (st : LoopState σ) (c : Command)
    (out : String) (el : Int)
    (hsh : (Request.shellResult sh st c).1 = ExecResult.clean out el) :
    Request.entry sh st c = c.onClean out el := by
  unfold Request.shellResult at hsh
  rcases hs : sh st.world c.Command (c.dir st.env) st.env.lookup with ⟨o, w1⟩
  rw [hs] at hsh
  simp only at hsh
  subst hsh
  simp [Request.entry, Command.Run, hs, Request.resultStep]

theorem entry_error {σ : Type} (sh : Shell σ) (st : LoopState σ) (c : Command)
    (text : String)
    (hsh : (∃ code, (Request.shellResult sh st c).1 = ExecResult.exitError code text) ∨
      (Request.shellResult sh st c).1 = ExecResult.fault text) :
    Request.entry sh st c = Request.synthetic c text := by
  unfold Request.shellResult at hsh
  rcases hs : sh st.world c.Command (c.dir st.env) st.env.lookup with ⟨o, w1⟩
  rw [hs] at hsh
  simp only at hsh
  rcases hsh with ⟨code, hc⟩ | hf
  · subst hc
    simp [Request.entry, Command.Run, hs, Request.resultStep, synthetic_onExitError]
  · subst hf
    simp [Request.entry, Command.Run, hs, Request.resultStep]

theorem onClean_fields (r : Command) (out : String) (el : Int) :
    (r.onClean out el).Title = r.Title ∧ (r.onClean out el).Slug = r.Slug ∧
    (r.onClean out el).Command = r.Command ∧ (r.onClean out el).Check = r.Check := by
  unfold Command.onClean
  by_cases hi : r.IncludeOutput = true <;> simp [hi]

theorem entry_fields {σ : Type} (sh : Shell σ) (st : LoopState σ) (c : Command) :
    (Request.entry sh st c).Title = c.Title ∧ (Request.entry sh st c).Slug = c.Slug ∧
    (Request.entry sh st c).Command = c.Command ∧ (Request.entry sh st c).Check = c.Check := by
  rcases shellResult_cases sh st c with ⟨out, el, h⟩ | ⟨text, h⟩
  · rw [entry_clean sh st c out el h]
    exact onClean_fields c out el
  · rw [entry_error sh st c text h]
    simp [Request.synthetic]

/-- In every state an iteration either leaves the loop variables alone (the command is not
selected) or appends exactly the entry of the command; it never clears `skipNonEssential`,
and it keeps an allocated map allocated. -/
theorem iterate_spec {σ : Type} (sh : Shell σ) (st st1 : LoopState σ) (c : Command)
    (h : Request.iterate sh st c = some st1) :
    st1.result = st.result ++ (if Request.selected st c then [Request.entry sh st c] else []) ∧
    (st.skipNonEssential = true → st1.skipNonEssential = true) ∧
    (st.env.present = true → st1.env.present = true) ∧
    st1.world = (if Request.selected st c then (Request.shellResult sh st c).2 else st.world) := by
  by_cases hsel : Request.selected st c = true
  · rcases shellResult_cases sh st c with ⟨out, el, hc⟩ | ⟨text, he⟩
    · rw [iterate_clean sh st c out el hsel hc] at h
      rw [entry_clean sh st c out el hc]
      by_cases hk : c.IncludeInEnv = ""
      · simp [hk] at h
        subst h
        simp [hsel]
      · cases henv : st.env with
        | nil => simp [hk, henv, Env.store] at h
        | mk m =>
          simp [hk, henv, Env.store] at h
          subst h
          simp [hsel, Env.present]
    · rw [iterate_error sh st c text hsel he] at h
      rw [entry_error sh st c text he]
      simp at h
      subst h
      simp [hsel]
  · simp only [Bool.not_eq_true] at hsel
    rw [iterate_not_selected sh st c hsel] at h
    simp at h
    subst h
    simp [hsel]

theorem iterate_total {σ : Type} (sh : Shell σ) (st : LoopState σ) (c : Command)
    (henv : st.env.present = true) : ∃ st1, Request.iterate sh st c = some st1 := by
  by_cases hsel : Request.selected st c = true
  · rcases shellResult_cases sh st c with ⟨out, el, hc⟩ | ⟨text, he⟩
    · rw [iterate_clean sh st c out el hsel hc]
      cases hm : st.env with
      | nil => simp [hm, Env.present] at henv
      | mk m =>
        by_cases hk : c.IncludeInEnv = "" <;> simp [hk, Env.store]
    · exact ⟨_, iterate_error sh st c text hsel he⟩
  · simp only [Bool.not_eq_true] at hsel
    exact ⟨_, iterate_not_selected sh st c hsel⟩

/-! ## The loop -/

theorem loop_append {σ : Type} (sh : Shell σ) (st : LoopState σ) (xs ys : List Command) :
    Request.loop sh st (xs ++ ys) =
      (Request.loop sh st xs).bind (fun st1 => Request.loop sh st1 ys) := by
  induction xs generalizing st with
  | nil => simp [Request.loop]
  | cons x xs ih =>
    simp only [List.cons_append, Request.loop]
    cases hx : Request.iterate sh st x with
    | none => simp
    | some st1 => simpa using ih st1

theorem loop_total {σ : Type} (sh : Shell σ) (st : LoopState σ) (xs : List Command)
    (henv : st.env.present = true) :
    ∃ st2, Request.loop sh st xs = some st2 ∧ st2.env.present = true := by
  induction xs generalizing st with
  | nil => exact ⟨st, rfl, henv⟩
  | cons x xs ih =>
    obtain ⟨st1, h1⟩ := iterate_total sh st x henv
    obtain ⟨st2, h2, hp⟩ := ih st1 ((iterate_spec sh st st1 x h1).2.2.1 henv)
    exact ⟨st2, by simp [Request.loop, h1, h2], hp⟩

theorem loop_skip_mono {σ : Type} (sh : Shell σ) (st st2 : LoopState σ) (xs : List Command)
    (h : Request.loop sh st xs = some st2) (hs : st.skipNonEssential = true) :
    st2.skipNonEssential = true := by
  induction xs generalizing st with
  | nil =>
    simp [Request.loop] at h
    subst h
    exact hs
  | cons x xs ih =>
    simp only [Request.loop] at h
    cases hx : Request.iterate sh st x with
    | none => simp [hx] at h
    | some st1 =>
      rw [hx] at h
      exact ih st1 h ((iterate_spec sh st st1 x hx).2.1 hs)

theorem loop_result {σ : Type} (sh : Shell σ) (st st2 : LoopState σ) (xs : List Command)
    (h : Request.loop sh st xs = some st2) :
    ∃ tail, st2.result = st.result ++ tail ∧ tail.length ≤ xs.length := by
  induction xs generalizing st with
  | nil =>
    simp [Request.loop] at h
    subst h
    exact ⟨[], by simp, by simp⟩
  | cons x xs ih =>
    simp only [Request.loop] at h
    cases hx : Request.iterate sh st x with
    | none => simp [hx] at h
    | some st1 =>
      rw [hx] at h
      obtain ⟨tail, ht, hl⟩ := ih st1 h
      have h1 := (iterate_spec sh st st1 x hx).1
      refine ⟨(if Request.selected st x then [Request.entry sh st x] else []) ++ tail, ?_, ?_⟩
      · rw [ht, h1, List.append_assoc]
      · by_cases hsel : Request.selected st x = true <;> simp [hsel] <;> omega

/-- Once `skipNonEssential` is set, the rest of the pass appends one entry for each remaining
command that has `RunOnFail`, in order, and nothing for the others. -/
theorem loop_skipping {σ : Type} (sh : Shell σ) (st st2 : LoopState σ) (xs : List Command)
    (h : Request.loop sh st xs = some st2) (hs : st.skipNonEssential = true) :
    ∃ tail, st2.result = st.result ++ tail ∧
      List.Forall₂ Request.FromRunOnFail tail (xs.filter (fun c => c.RunOnFail)) := by
  induction xs generalizing st with
  | nil =>
    simp [Request.loop] at h
    subst h
    exact ⟨[], by simp, by simp⟩
  | cons x xs ih =>
    simp only [Request.loop] at h
    cases hx : Request.iterate sh st x with
    | none => simp [hx] at h
    | some st1 =>
      rw [hx] at h
      have hsp := iterate_spec sh st st1 x hx
      obtain ⟨tail, ht, hf⟩ := ih st1 h (hsp.2.1 hs)
      by_cases hr : x.RunOnFail = true
      · have hsel : Request.selected st x = true := by simp [Request.selected, hr]
        refine ⟨Request.entry sh st x :: tail, ?_, ?_⟩
        · rw [ht, hsp.1]
          simp [hsel]
        · simp only [List.filter_cons, hr, if_true]
          exact List.Forall₂.cons ⟨hr, entry_fields sh st x⟩ hf
      · have hsel : Request.selected st x = false := by
          simp only [Bool.not_eq_true] at hr
          simp [Request.selected, hr, hs]
        refine ⟨tail, ?_, ?_⟩
        · rw [ht, hsp.1]
          simp [hsel]
        · simp only [Bool.not_eq_true] at hr
          simpa [List.filter_cons, hr] using hf

/-! ## The state at a position -/

theorem stateAt_zero {σ : Type} (sh : Shell σ) (w : σ) (t : Request) :
    Request.stateAt sh w t 0 = some (Request.start w t) := by
  simp [Request.stateAt, Request.loop]

theorem stateAt_succ {σ : Type} (sh : Shell σ) (w : σ) (t : Request) (i : Nat)
    (hi : i < t.Commands.length) :
    Request.stateAt sh w t (i + 1) =
      (Request.stateAt sh w t i).bind (fun st => Request.iterate sh st t.Commands[i]) := by
  unfold Request.stateAt
  rw [List.take_succ, List.getElem?_eq_getElem hi, loop_append]
  congr 1
  funext st
  simp only [Option.toList, Request.loop]
  cases Request.iterate sh st t.Commands[i] <;> rfl

theorem stateAt_all {σ : Type} (sh : Shell σ) (w : σ) (t : Request) (j : Nat)
    (hj : t.Commands.length ≤ j) :
    Request.stateAt sh w t j = Request.loop sh (Request.start w t) t.Commands := by
  unfold Request.stateAt
  rw [List.take_of_length_le hj]

/-- The state at a later position is reached from the state at an earlier one by running the
commands in between. -/
theorem stateAt_split {σ : Type} (sh : Shell σ) (w : σ) (t : Request) (i j : Nat) (hij : i ≤ j) :
    Request.stateAt sh w t j =
      (Request.stateAt sh w t i).bind
        (fun st => Request.loop sh st ((t.Commands.take j).drop i)) := by
  unfold Request.stateAt
  rw [← loop_append]
  congr 1
  have h := List.take_append_drop i (t.Commands.take j)
  rw [List.take_take, Nat.min_eq_left hij] at h
  exact h.symm

theorem run_eq {σ : Type} (sh : Shell σ) (w : σ) (t : Request) :
    Request.Run sh w t = (Request.stateAt sh w t t.Commands.length).map
      (fun st => { success := !st.skipNonEssential, steps := st.result, env := st.env,
                   world := st.world }) := by
  rw [stateAt_all sh w t _ (Nat.le_refl _)]
  unfold Request.Run
  cases Request.loop sh (Request.start w t) t.Commands <;> rfl

theorem run_total {σ : Type} (sh : Shell σ) (w : σ) (t : Request)
    (henv : t.Env.present = true) : ∃ res, Request.Run sh w t = some res := by
  obtain ⟨st2, h2, _⟩ := loop_total sh (Request.start w t) t.Commands henv
  refine ⟨{ success := !st2.skipNonEssential, steps := st2.result, env := st2.env,
            world := st2.world }, ?_⟩
  simp [Request.Run, h2]

theorem stateAt_le {σ : Type} (sh : Shell σ) (w : σ) (t : Request) (i j : Nat) (hij : i ≤ j)
    (st2 : LoopState σ) (h : Request.stateAt sh w t j = some st2) :
    ∃ st, Request.stateAt sh w t i = some st ∧
      Request.loop sh st ((t.Commands.take j).drop i) = some st2 := by
  rw [stateAt_split sh w t i j hij] at h
  cases hs : Request.stateAt sh w t i with
  | none => simp [hs] at h
  | some st => exact ⟨st, rfl, by simpa [hs] using h⟩

/-- The result sequence a run returns extends the `result` of every state the loop went
through. -/
theorem run_extends {σ : Type} (sh : Shell σ) (w : σ) (t : Request) (k : Nat)
    (stk : LoopState σ) (res : RunResult σ) (hk : Request.stateAt sh w t k = some stk)
    (hres : Request.Run sh w t = some res) : ∃ tail, res.steps = stk.result ++ tail := by
  rw [run_eq] at hres
  cases hl : Request.stateAt sh w t t.Commands.length with
  | none => simp [hl] at hres
  | some stl =>
    simp [hl] at hres
    subst hres
    by_cases hle : k ≤ t.Commands.length
    · obtain ⟨st, h1, h2⟩ := stateAt_le sh w t k _ hle stl hl
      rw [hk] at h1
      cases h1
      obtain ⟨tail, ht, _⟩ := loop_result sh stk stl _ h2
      exact ⟨tail, ht⟩
    · rw [stateAt_all sh w t k (by omega), ← stateAt_all sh w t _ (Nat.le_refl _), hl] at hk
      cases hk
      exact ⟨[], by simp⟩

theorem run_entry_at {σ : Type} (sh : Shell σ) (w : σ) (t : Request) (k : Nat)
    (st st1 : LoopState σ) (e : Command) (res : RunResult σ)
    (hk : Request.stateAt sh w t k = some st1) (he : st1.result = st.result ++ [e])
    (hres : Request.Run sh w t = some res) : res.steps[st.result.length]? = some e := by
  obtain ⟨tail, ht⟩ := run_extends sh w t k st1 res hk hres
  rw [ht, he, List.append_assoc, List.getElem?_append_right (Nat.le_refl _)]
  simp

/-- The shell matters to an iteration only through the one call it receives. -/
theorem iterate_congr {σ : Type} (sh sh2 : Shell σ) (st : LoopState σ) (c : Command)
    (h : sh2 st.world c.Command (c.dir st.env) st.env.lookup =
      sh st.world c.Command (c.dir st.env) st.env.lookup) :
    Request.iterate sh2 st c = Request.iterate sh st c := by
  simp only [Request.iterate, Command.Run, h]

theorem store_lookup_same (env env1 : Env) (k v : String) (h : env.store k v = some env1) :
    env1.lookup k = some v := by
  cases env with
  | nil => simp [Env.store] at h
  | mk m =>
    simp [Env.store] at h
    subst h
    simp [Env.lookup]

theorem store_lookup_other (env env1 : Env) (k v x : String) (h : env.store k v = some env1)
    (hx : x ≠ k) : env1.lookup x = env.lookup x := by
  cases env with
  | nil => simp [Env.store] at h
  | mk m =>
    simp [Env.store] at h
    subst h
    simp [Env.lookup, hx]

/-- An iteration changes the map at most at the key the command names in `IncludeInEnv`. -/
theorem iterate_env_frame {σ : Type} (sh : Shell σ) (st st1 : LoopState σ) (c : Command)
    (x : String) (h : Request.iterate sh st c = some st1) (hx : c.IncludeInEnv ≠ x) :
    st1.env.lookup x = st.env.lookup x := by
  by_cases hsel : Request.selected st c = true
  · rcases shellResult_cases sh st c with ⟨out, el, hc⟩ | ⟨text, he⟩
    · rw [iterate_clean sh st c out el hsel hc] at h
      by_cases hk : c.IncludeInEnv = ""
      · simp [hk] at h
        subst h
        rfl
      · simp only [bne_iff_ne, ne_eq, hk, not_false_eq_true, if_true, Option.map_eq_some'] at h
        obtain ⟨env1, hs, h1⟩ := h
        subst h1
        exact store_lookup_other st.env env1 _ _ x hs (fun hh => hx hh.symm)
    · rw [iterate_error sh st c text hsel he] at h
      simp at h
      subst h
      rfl
  · simp only [Bool.not_eq_true] at hsel
    rw [iterate_not_selected sh st c hsel] at h
    simp at h
    subst h
    rfl

theorem loop_env_frame {σ : Type} (sh : Shell σ) (st st2 : LoopState σ) (xs : List Command)
    (x : String) (h : Request.loop sh st xs = some st2)
    (hx : ∀ d ∈ xs, d.IncludeInEnv ≠ x) : st2.env.lookup x = st.env.lookup x := by
  induction xs generalizing st with
  | nil =>
    simp [Request.loop] at h
    subst h
    rfl
  | cons c xs ih =>
    simp only [Request.loop] at h
    cases hc : Request.iterate sh st c with
    | none => simp [hc] at h
    | some st1 =>
      rw [hc] at h
      rw [ih st1 h (fun d hd => hx d (List.mem_cons_of_mem _ hd))]
      exact iterate_env_frame sh st st1 c x hc (hx c (List.mem_cons_self _ _))

theorem onClean_eq (c : Command) (out : String) (el : Int) :
    c.onClean out el =
      { c with Completed := true, ExitCode := 0, Duration := el,
               Output := if c.IncludeOutput then c.Output ++ out else c.Output } := by
  unfold Command.onClean
  by_cases hi : c.IncludeOutput = true <;> simp [hi]

/-- A selected command that exits cleanly, with the map allocated: the iteration appends the
step `Command.Run` returned, leaves `skipNonEssential` as it was, and the map afterwards is
allocated. -/
theorem iterate_clean_present {σ : Type} (sh : Shell σ) (st : LoopState σ) (c : Command)
    (out : String) (el : Int) (h : Request.selected st c = true)
    (hsh : (Request.shellResult sh st c).1 = ExecResult.clean out el)
    (henv : st.env.present = true) :
    ∃ env1, Request.iterate sh st c = some
        { skipNonEssential := st.skipNonEssential, result := st.result ++ [c.onClean out el],
          env := env1, world := (Request.shellResult sh st c).2 } ∧
      env1.present = true ∧
      (c.IncludeInEnv ≠ "" → env1.lookup c.IncludeInEnv = some (c.onClean out el).Output) := by
  rw [iterate_clean sh st c out el h hsh]
  cases hm : st.env with
  | nil => simp [hm, Env.present] at henv
  | mk m =>
    by_cases hk : c.IncludeInEnv = ""
    · exact ⟨Env.mk m, by simp [hk], rfl, fun hh => absurd hk hh⟩
    · exact ⟨Env.mk (fun j => if j = c.IncludeInEnv then some (c.onClean out el).Output else m j),
        by simp [hk, Env.store], rfl, fun _ => by simp [Env.lookup]⟩

/-- While every command so far has exited cleanly, the loop has not panicked, has not set
`skipNonEssential`, and holds one entry per command processed. -/
theorem all_clean_upto {σ : Type} (sh : Shell σ) (w : σ) (t : Request)
    (henv : t.Env.present = true)
    (hclean : ∀ i (hi : i < t.Commands.length) (st : LoopState σ),
      Request.stateAt sh w t i = some st →
      ∃ out el, (Request.shellResult sh st t.Commands[i]).1 = ExecResult.clean out el)
    (n : Nat) (hn : n ≤ t.Commands.length) :
    ∃ st, Request.stateAt sh w t n = some st ∧ st.skipNonEssential = false ∧
      st.env.present = true ∧ st.result.length = n ∧
      ∀ k (hk : k < t.Commands.length), k < n →
        ∃ stk out el, Request.stateAt sh w t k = some stk ∧
          (Request.shellResult sh stk t.Commands[k]).1 = ExecResult.clean out el ∧
          st.result[k]? = some (t.Commands[k].onClean out el) := by
  induction n with
  | zero =>
    exact ⟨Request.start w t, stateAt_zero sh w t, rfl, henv, rfl, fun k _ hk => by omega⟩
  | succ n ih =>
    obtain ⟨st, hst, hskip, hpres, hlen, hall⟩ := ih (by omega)
    have hn1 : n < t.Commands.length := by omega
    obtain ⟨out, el, hsh⟩ := hclean n hn1 st hst
    have hsel : Request.selected st t.Commands[n] = true := by simp [Request.selected, hskip]
    obtain ⟨env1, hit, hp1, _⟩ := iterate_clean_present sh st _ out el hsel hsh hpres
    have hnext : Request.stateAt sh w t (n + 1) = some
        { skipNonEssential := st.skipNonEssential,
          result := st.result ++ [t.Commands[n].onClean out el],
          env := env1, world := (Request.shellResult sh st t.Commands[n]).2 } := by
      rw [stateAt_succ sh w t n hn1, hst]
      exact hit
    refine ⟨_, hnext, hskip, hp1, by simp [hlen], ?_⟩
    intro k hk hkn
    by_cases hkeq : k = n
    · subst hkeq
      refine ⟨st, out, el, hst, hsh, ?_⟩
      show (st.result ++ [t.Commands[k].onClean out el])[k]? = _
      rw [List.getElem?_append_right (by omega)]
      simp [hlen]
    · obtain ⟨stk, o, e, h1, h2, h3⟩ := hall k hk (by omega)
      refine ⟨stk, o, e, h1, h2, ?_⟩
      show (st.result ++ [t.Commands[n].onClean out el])[k]? = _
      rw [List.getElem?_append_left (by omega)]
      exact h3

theorem stateAt_present {σ : Type} (sh : Shell σ) (w : σ) (t : Request) (i : Nat)
    (henv : t.Env.present = true) :
    ∃ st, Request.stateAt sh w t i = some st ∧ st.env.present = true :=
  loop_total sh (Request.start w t) (t.Commands.take i) henv

theorem stateAt_result_length {σ : Type} (sh : Shell σ) (w : σ) (t : Request) (i : Nat)
    (st : LoopState σ) (h : Request.stateAt sh w t i = some st) : st.result.length ≤ i := by
  obtain ⟨tail, ht, hl⟩ := loop_result sh (Request.start w t) st _ h
  rw [ht]
  simp only [Request.start, List.nil_append]
  exact Nat.le_trans hl (List.length_take_le _ _)

/-- An iteration that changes the map at a key has executed a command that names the key in
`IncludeInEnv` and exited cleanly: that is the only write. -/
theorem iterate_env_overwrite {σ : Type} (sh : Shell σ) (st st1 : LoopState σ) (c : Command)
    (x : String) (h : Request.iterate sh st c = some st1)
    (hx : st1.env.lookup x ≠ st.env.lookup x) :
    Request.selected st c = true ∧ c.IncludeInEnv = x ∧
      ∃ out el, (Request.shellResult sh st c).1 = ExecResult.clean out el := by
  have hsel : Request.selected st c = true := by
    by_contra hsel
    simp only [Bool.not_eq_true] at hsel
    rw [iterate_not_selected sh st c hsel] at h
    simp only [Option.some.injEq] at h
    subst h
    exact hx rfl
  refine ⟨hsel, ?_, ?_⟩
  · by_contra hk
    exact hx (iterate_env_frame sh st st1 c x h hk)
  · rcases shellResult_cases sh st c with hc | ⟨text, he⟩
    · exact hc
    · exfalso
      rw [iterate_error sh st c text hsel he] at h
      simp only [Option.some.injEq] at h
      subst h
      exact hx rfl

/-- A key keeps its value from one position of the pass to a later one as long as no step in
between overwrites it, that is, is executed, names the key in `IncludeInEnv` and exits
cleanly. -/
theorem env_kept_until_overwritten {σ : Type} (sh : Shell σ) (w : σ) (t : Request)
    (x v : String) (i : Nat) (sti : LoopState σ) (henv : t.Env.present = true)
    (hsti : Request.stateAt sh w t i = some sti) (hv : sti.env.lookup x = some v)
    (d : Nat)
    (hkeep : ∀ k (hk : k < t.Commands.length), i ≤ k → k < i + d → ∀ stk : LoopState σ,
      Request.stateAt sh w t k = some stk → Request.selected stk t.Commands[k] = true →
      t.Commands[k].IncludeInEnv = x →
      ∀ out el, (Request.shellResult sh stk t.Commands[k]).1 ≠ ExecResult.clean out el) :
    ∃ st2, Request.stateAt sh w t (i + d) = some st2 ∧ st2.env.lookup x = some v := by
  induction d with
  | zero => exact ⟨sti, hsti, hv⟩
  | succ d ih =>
    obtain ⟨stj, hj, hvj⟩ := ih (fun k hk h1 h2 => hkeep k hk h1 (by omega))
    by_cases hlt : i + d < t.Commands.length
    · obtain ⟨st2, h2, _⟩ := stateAt_present sh w t (i + d + 1) henv
      have hit : Request.iterate sh stj t.Commands[i + d] = some st2 := by
        rw [stateAt_succ sh w t (i + d) hlt, hj] at h2
        exact h2
      refine ⟨st2, h2, ?_⟩
      by_contra hne
      have hchg : st2.env.lookup x ≠ stj.env.lookup x := by
        rw [hvj]
        exact hne
      obtain ⟨hsel, hname, out, el, hc⟩ := iterate_env_overwrite sh stj st2 _ x hit hchg
      exact hkeep (i + d) hlt (by omega) (by omega) stj hj hsel hname out el hc
    · refine ⟨stj, ?_, hvj⟩
      rw [show i + (d + 1) = i + d + 1 from rfl, stateAt_all sh w t (i + d + 1) (by omega),
        ← stateAt_all sh w t (i + d) (by omega)]
      exact hj

/-! ## The claims -/

/-- C1: a `terraform_plan` step exiting with code 2 is meant not to set skip mode. On the job
`planJob` the plan command exits with code 2 and the only other step would exit cleanly, yet
`Request.Run` returns `success = false` and never executes the later step: the result
sequence is the single entry built for the plan step, whose exit code has been forced to 1
before line 124 compares it with 2. -/
theorem terraform_plan_exit_two_sets_skip :
    (Request.shellResult demoShell (Request.start () planJob) planStep).1 =
        ExecResult.exitError 2 "exit status 2" ∧
      (Request.shellResult demoShell (Request.start () planJob) applyStep).1 =
        ExecResult.clean "ok\n" 5 ∧
      (Request.Run demoShell () planJob).map (fun r => (r.success, r.steps)) =
        some (false, [{ Title := "plan", Slug := "terraform_plan", Command := "exit 2",
                        Output := "exit status 2", ExitCode := 1 }]) := by
  decide

/-- C2: skip-mode monotonicity. If the step at position `i` is executed and its command exits
with a non-zero code, then the state after it has `skipNonEssential` set, every later state
of the pass still has it set, and the result sequence of a run that returns is the result up
to and including that step followed by one entry for each later step with `RunOnFail`, in
order: no later step without `RunOnFail` contributes an entry. With a present env the run
does return. -/
theorem skip_mode_monotone {σ : Type} (sh : Shell σ) (w : σ) (t : Request) (i : Nat)
    (hi : i < t.Commands.length) (st : LoopState σ) (code : Int) (text : String)
    (hst : Request.stateAt sh w t i = some st)
    (hsel : Request.selected st t.Commands[i] = true)
    (hsh : (Request.shellResult sh st t.Commands[i]).1 = ExecResult.exitError code text)
    (_hcode : code ≠ 0)
    (_hexempt : ¬ (t.Commands[i].Slug = "terraform_plan" ∧ code = 2)) :
    ∃ st1, Request.stateAt sh w t (i + 1) = some st1 ∧
      st1.result = st.result ++ [Request.synthetic t.Commands[i] text] ∧
      st1.skipNonEssential = true ∧
      (∀ j st2, i < j → Request.stateAt sh w t j = some st2 → st2.skipNonEssential = true) ∧
      (∀ res, Request.Run sh w t = some res →
        res.success = false ∧
        ∃ tail, res.steps = st1.result ++ tail ∧
          List.Forall₂ Request.FromRunOnFail tail
            ((t.Commands.drop (i + 1)).filter (fun c => c.RunOnFail))) ∧
      (t.Env.present = true → ∃ res, Request.Run sh w t = some res) := by
  have h1 : Request.stateAt sh w t (i + 1) = some
      { skipNonEssential := true, result := st.result ++ [Request.synthetic t.Commands[i] text],
        env := st.env, world := (Request.shellResult sh st t.Commands[i]).2 } := by
    rw [stateAt_succ sh w t i hi, hst]
    exact iterate_exitError sh st _ code text hsel hsh
  refine ⟨_, h1, rfl, rfl, ?_, ?_, run_total sh w t⟩
  · intro j st2 hij h2
    obtain ⟨s, hs, hl⟩ := stateAt_le sh w t (i + 1) j hij st2 h2
    rw [h1] at hs
    cases hs
    exact loop_skip_mono sh _ st2 _ hl rfl
  · intro res hres
    rw [run_eq] at hres
    cases hl : Request.stateAt sh w t t.Commands.length with
    | none => simp [hl] at hres
    | some stl =>
      simp [hl] at hres
      subst hres
      obtain ⟨s, hs, hloop⟩ := stateAt_le sh w t (i + 1) _ hi stl hl
      rw [h1] at hs
      cases hs
      rw [List.take_length] at hloop
      refine ⟨by simp [loop_skip_mono sh _ stl _ hloop rfl], ?_⟩
      exact loop_skipping sh _ stl _ hloop rfl

theorem skip_mode_monotone_witness :
    ∃ st1, Request.stateAt demoShell () failJob 1 = some st1 ∧
      st1.result = (Request.start () failJob).result ++ [Request.synthetic failStep "exit status 1"] ∧
      st1.skipNonEssential = true ∧
      (∀ j st2, 0 < j → Request.stateAt demoShell () failJob j = some st2 →
        st2.skipNonEssential = true) ∧
      (∀ res, Request.Run demoShell () failJob = some res →
        res.success = false ∧
        ∃ tail, res.steps = st1.result ++ tail ∧
          List.Forall₂ Request.FromRunOnFail tail
            ((failJob.Commands.drop 1).filter (fun c => c.RunOnFail))) ∧
      (failJob.Env.present = true → ∃ res, Request.Run demoShell () failJob = some res) :=
  skip_mode_monotone demoShell () failJob 0 (by decide) (Request.start () failJob) 1
    "exit status 1" (stateAt_zero _ _ _) (by decide) (by decide) (by decide) (by decide)

/-- C3: a failing step is meant to give the verdict failure. On the job `noEnvJob`, whose
record has no `env`, the first step fails and the second, which runs on failure, succeeds and
names a key in `IncludeInEnv`: the write into the nil map panics, so neither `Request.Run` nor
`HandleRecord` returns anything. -/
theorem failing_step_without_env_panics :
    (Request.shellResult demoShell (Request.start () noEnvJob) failStep).1 =
        ExecResult.exitError 1 "exit status 1" ∧
      (Request.Run demoShell () noEnvJob).isNone = true ∧
      (HandleRecord (fun _ => Except.ok noEnvJob) demoShell () { Body := "" }).isNone = true := by
  decide

/-- With a present env a failing step does give the verdict failure: if the step at position
`i` is executed and its command exits with a non-zero code, `Request.Run` returns
`success = false`, `HandleRecord` concludes `Failure`, and the result sequence holds the
entry of that step with exit code 1. -/
theorem failing_step_gives_failure {σ : Type} (sh : Shell σ) (w : σ) (t : Request)
    (unmarshal : String → Except String Request) (msg : SQSMessage) (i : Nat)
    (hi : i < t.Commands.length) (st : LoopState σ) (code : Int) (text : String)
    (henv : t.Env.present = true) (hparse : unmarshal msg.Body = Except.ok t)
    (hst : Request.stateAt sh w t i = some st)
    (hsel : Request.selected st t.Commands[i] = true)
    (hsh : (Request.shellResult sh st t.Commands[i]).1 = ExecResult.exitError code text) :
    ∃ res, Request.Run sh w t = some res ∧ res.success = false ∧
      res.steps[st.result.length]? = some (Request.synthetic t.Commands[i] text) ∧
      (Request.synthetic t.Commands[i] text).ExitCode ≠ 0 ∧
      ∃ resp, HandleRecord unmarshal sh w msg = some (Except.ok resp, res.world) ∧
        resp.Conclusion = Conclusion.Failure ∧ resp.Steps = res.steps := by
  obtain ⟨res, hres⟩ := run_total sh w t henv
  have h1 : Request.stateAt sh w t (i + 1) = some
      { skipNonEssential := true, result := st.result ++ [Request.synthetic t.Commands[i] text],
        env := st.env, world := (Request.shellResult sh st t.Commands[i]).2 } := by
    rw [stateAt_succ sh w t i hi, hst]
    exact iterate_exitError sh st _ code text hsel hsh
  have hfail : res.success = false := by
    have hr := hres
    rw [run_eq] at hr
    cases hl : Request.stateAt sh w t t.Commands.length with
    | none => simp [hl] at hr
    | some stl =>
      simp [hl] at hr
      subst hr
      obtain ⟨s, hs, hloop⟩ := stateAt_le sh w t (i + 1) _ hi stl hl
      rw [h1] at hs
      cases hs
      simp [loop_skip_mono sh _ stl _ hloop rfl]
  refine ⟨res, hres, hfail, run_entry_at sh w t (i + 1) st _ _ res h1 rfl hres, ?_, ?_⟩
  · simp [Request.synthetic]
  · refine ⟨{ Conclusion := if res.success then Conclusion.Success else Conclusion.Failure,
              Steps := res.steps, Request := { Env := res.env, Commands := t.Commands } },
            ?_, ?_, rfl⟩
    · simp only [HandleRecord, hparse, hres]
    · simp [hfail]

theorem failing_step_gives_failure_at_failJob :
    ∃ res, Request.Run demoShell () failJob = some res ∧ res.success = false ∧
      res.steps[(Request.start () failJob).result.length]? =
        some (Request.synthetic failStep "exit status 1") ∧
      (Request.synthetic failStep "exit status 1").ExitCode ≠ 0 ∧
      ∃ resp, HandleRecord (fun _ => Except.ok failJob) demoShell () { Body := "" } =
          some (Except.ok resp, res.world) ∧
        resp.Conclusion = Conclusion.Failure ∧ resp.Steps = res.steps :=
  failing_step_gives_failure demoShell () failJob (fun _ => Except.ok failJob) { Body := "" } 0
    (by decide) (Request.start () failJob) 1 "exit status 1" (by decide) rfl
    (stateAt_zero _ _ _) (by decide) (by decide)

/-- C4, where it fails: the step of `staleJob` arrives with `"output": "old"`, its command
exits cleanly with stdout `ok`, and `IncludeOutput` is set; the entry of the result sequence
has output `old` followed by the stdout, not the stdout alone. -/
theorem output_is_not_stdout_alone :
    staleJob.Env.present = true ∧ staleStep.IncludeOutput = true ∧
      (Request.shellResult demoShell (Request.start () staleJob) staleStep).1 =
        ExecResult.clean "ok\n" 5 ∧
      (Request.Run demoShell () staleJob).map
          (fun r => (r.success, r.steps.map (fun e => e.Output))) = some (true, ["oldok\n"]) ∧
      "oldok\n" ≠ "ok\n" := by
  decide

/-- C4, amended: for every job with a present env in which every step's command exits with
status 0, `Request.Run` returns `success = true`, `HandleRecord` concludes `Success`, and the
result sequence has exactly one entry per job step, in the job's order; the entry at position
`i` is the job step at position `i` (same title, slug, command and every other field) with
`Completed = true`, `ExitCode = 0`, the measured duration, and as output the output the step
arrived with, followed by the captured stdout when `IncludeOutput` is set. -/
theorem all_clean_run {σ : Type} (sh : Shell σ) (w : σ) (t : Request)
    (unmarshal : String → Except String Request) (msg : SQSMessage)
    (henv : t.Env.present = true) (hparse : unmarshal msg.Body = Except.ok t)
    (hclean : ∀ i (hi : i < t.Commands.length) (st : LoopState σ),
      Request.stateAt sh w t i = some st →
      ∃ out el, (Request.shellResult sh st t.Commands[i]).1 = ExecResult.clean out el) :
    ∃ res, Request.Run sh w t = some res ∧ res.success = true ∧
      (∃ resp, HandleRecord unmarshal sh w msg = some (Except.ok resp, res.world) ∧
        resp.Conclusion = Conclusion.Success ∧ resp.Steps = res.steps) ∧
      res.steps.length = t.Commands.length ∧
      ∀ i (hi : i < t.Commands.length),
        ∃ st out el, Request.stateAt sh w t i = some st ∧
          (Request.shellResult sh st t.Commands[i]).1 = ExecResult.clean out el ∧
          res.steps[i]? = some
            { t.Commands[i] with
              Completed := true, ExitCode := 0, Duration := el,
              Output := if t.Commands[i].IncludeOutput then t.Commands[i].Output ++ out
                        else t.Commands[i].Output } := by
  obtain ⟨st, hst, hskip, _, hlen, hall⟩ :=
    all_clean_upto sh w t henv hclean t.Commands.length (Nat.le_refl _)
  have hres : Request.Run sh w t = some
      { success := !st.skipNonEssential, steps := st.result, env := st.env,
        world := st.world } := by
    rw [run_eq, hst]
    rfl
  refine ⟨_, hres, by simp [hskip], ?_, hlen, ?_⟩
  · refine ⟨{ Conclusion := Conclusion.Success, Steps := st.result,
              Request := { Env := st.env, Commands := t.Commands } }, ?_, rfl, rfl⟩
    simp only [HandleRecord, hparse, hres]
    simp [hskip]
  · intro i hi
    obtain ⟨stk, out, el, h1, h2, h3⟩ := hall i hi hi
    exact ⟨stk, out, el, h1, h2, by rw [← onClean_eq]; exact h3⟩

theorem all_clean_run_witness :
    ∃ res, Request.Run demoShell () exportJob = some res ∧ res.success = true ∧
      (∃ resp, HandleRecord (fun _ => Except.ok exportJob) demoShell () { Body := "" } =
          some (Except.ok resp, res.world) ∧
        resp.Conclusion = Conclusion.Success ∧ resp.Steps = res.steps) ∧
      res.steps.length = exportJob.Commands.length ∧
      ∀ i (hi : i < exportJob.Commands.length),
        ∃ st out el, Request.stateAt demoShell () exportJob i = some st ∧
          (Request.shellResult demoShell st exportJob.Commands[i]).1 = ExecResult.clean out el ∧
          res.steps[i]? = some
            { exportJob.Commands[i] with
              Completed := true, ExitCode := 0, Duration := el,
              Output := if exportJob.Commands[i].IncludeOutput
                        then exportJob.Commands[i].Output ++ out
                        else exportJob.Commands[i].Output } :=
  all_clean_run demoShell () exportJob (fun _ => Except.ok exportJob) { Body := "" }
    (by decide) rfl
    (by
      intro i hi st _
      have h2 : i = 0 ∨ i = 1 := by
        have : i < 2 := hi
        omega
      rcases h2 with rfl | rfl
      · exact ⟨"ok\n", 5, rfl⟩
      · exact ⟨"ok\n", 5, rfl⟩)

/-- C5: for every job with zero steps, whatever its env (the nil map included),
`Request.Run` returns `success = true` with an empty result sequence and leaves the env and
the world as they were, and `HandleRecord` concludes `Success`. -/
theorem zero_steps_success {σ : Type} (sh : Shell σ) (w : σ) (t : Request)
    (unmarshal : String → Except String Request) (msg : SQSMessage)
    (hparse : unmarshal msg.Body = Except.ok t) (hzero : t.Commands = []) :
    (∃ res, Request.Run sh w t = some res ∧ res.success = true ∧ res.steps = [] ∧
      res.env = t.Env ∧ res.world = w) ∧
    ∃ resp, HandleRecord unmarshal sh w msg = some (Except.ok resp, w) ∧
      resp.Conclusion = Conclusion.Success ∧ resp.Steps = [] := by
  have hres : Request.Run sh w t = some
      { success := true, steps := [], env := t.Env, world := w } := by
    simp [Request.Run, hzero, Request.loop, Request.start]
  refine ⟨⟨_, hres, rfl, rfl, rfl, rfl⟩, ?_⟩
  refine ⟨{ Conclusion := Conclusion.Success, Steps := [],
            Request := { Env := t.Env, Commands := t.Commands } }, ?_, rfl, rfl⟩
  simp only [HandleRecord, hparse, hres]
  rfl

theorem zero_steps_success_witness :
    (∃ res, Request.Run demoShell () emptyJob = some res ∧ res.success = true ∧
      res.steps = [] ∧ res.env = emptyJob.Env ∧ res.world = ()) ∧
    ∃ resp, HandleRecord (fun _ => Except.ok emptyJob) demoShell () { Body := "" } =
        some (Except.ok resp, ()) ∧
      resp.Conclusion = Conclusion.Success ∧ resp.Steps = [] :=
  zero_steps_success demoShell () emptyJob (fun _ => Except.ok emptyJob) { Body := "" } rfl rfl

/-- C6: environment propagation. In a job with a present env, when the step at position `i`
names a non-empty key `X` in `IncludeInEnv`, is executed and exits cleanly, the state after
it maps `X` to exactly the output of the entry the step has in the result sequence, whatever
`X` held before. Until a later step overwrites `X` (is executed, names `X` in `IncludeInEnv`
and exits cleanly), every later state still maps `X` to that value; steps in between that
name `X` but fail or are skipped do not end this. The step executed in such a state is
invoked with such an env: a shell that differs only on environments where `X` has another
value gives the same iteration. -/
theorem env_propagation {σ : Type} (sh : Shell σ) (w : σ) (t : Request) (i : Nat)
    (hi : i < t.Commands.length) (st : LoopState σ) (X out : String) (el : Int)
    (henv : t.Env.present = true)
    (hst : Request.stateAt sh w t i = some st)
    (hsel : Request.selected st t.Commands[i] = true)
    (hX : t.Commands[i].IncludeInEnv = X) (hne : X ≠ "")
    (hsh : (Request.shellResult sh st t.Commands[i]).1 = ExecResult.clean out el) :
    ∃ st1 e, Request.stateAt sh w t (i + 1) = some st1 ∧
      e = t.Commands[i].onClean out el ∧
      st1.result = st.result ++ [e] ∧
      (∀ res, Request.Run sh w t = some res → res.steps[st.result.length]? = some e) ∧
      st1.env.lookup X = some e.Output ∧
      ∀ j, i < j →
        (∀ k (hk : k < t.Commands.length), i < k → k < j → ∀ stk : LoopState σ,
          Request.stateAt sh w t k = some stk → Request.selected stk t.Commands[k] = true →
          t.Commands[k].IncludeInEnv = X →
          ∀ out2 el2,
            (Request.shellResult sh stk t.Commands[k]).1 ≠ ExecResult.clean out2 el2) →
        ∃ st2, Request.stateAt sh w t j = some st2 ∧ st2.env.lookup X = some e.Output ∧
          ∀ (hj : j < t.Commands.length) (sh2 : Shell σ),
            (∀ w2 cmd dir m, m X = some e.Output → sh2 w2 cmd dir m = sh w2 cmd dir m) →
            Request.iterate sh2 st2 t.Commands[j] = Request.iterate sh st2 t.Commands[j] := by
  obtain ⟨st0, hst0, hpres0⟩ := stateAt_present sh w t i henv
  have hpres : st.env.present = true := by
    rw [hst] at hst0
    cases hst0
    exact hpres0
  obtain ⟨env1, hit, hp1, hlook⟩ := iterate_clean_present sh st _ out el hsel hsh hpres
  have hnext : Request.stateAt sh w t (i + 1) = some
      { skipNonEssential := st.skipNonEssential,
        result := st.result ++ [t.Commands[i].onClean out el],
        env := env1, world := (Request.shellResult sh st t.Commands[i]).2 } := by
    rw [stateAt_succ sh w t i hi, hst]
    exact hit
  have hval : env1.lookup X = some (t.Commands[i].onClean out el).Output := by
    rw [← hX]
    exact hlook (by rw [hX]; exact hne)
  refine ⟨_, _, hnext, rfl, rfl, ?_, hval, ?_⟩
  · intro res hres
    exact run_entry_at sh w t (i + 1) st _ _ res hnext rfl hres
  · intro j hij hkeep
    obtain ⟨d, hd⟩ := Nat.exists_eq_add_of_le (show i + 1 ≤ j from hij)
    subst hd
    obtain ⟨st2, hj2, hkept⟩ := env_kept_until_overwritten sh w t X _ (i + 1) _ henv hnext hval d
      (fun k hk h1 h2 => hkeep k hk (by omega) h2)
    refine ⟨st2, hj2, hkept, ?_⟩
    intro hj sh2 hagree
    exact iterate_congr sh sh2 st2 _ (hagree _ _ _ _ hkept)

theorem env_propagation_witness :
    ∃ st2, Request.stateAt demoShell () overwriteJob 3 = some st2 ∧
      st2.env.lookup "X" = some "ok\n" := by
  obtain ⟨st1, e, _, he, _, _, _, hlater⟩ :=
    env_propagation demoShell () overwriteJob 0 (by decide) (Request.start () overwriteJob)
      "X" "ok\n" 5 (by decide) (stateAt_zero _ _ _) (by decide) (by decide) (by decide)
      (by decide)
  obtain ⟨st2, h2, h3, _⟩ := hlater 3 (by decide) (by
    intro k hk hik hkj stk hstk hselk hname out2 el2 hclean
    have hk12 : k = 1 ∨ k = 2 := by omega
    rcases hk12 with rfl | rfl
    · have hfail : (Request.shellResult demoShell stk brokenStep).1 =
          ExecResult.exitError 1 "exit status 1" := rfl
      have hclean2 : (Request.shellResult demoShell stk brokenStep).1 =
          ExecResult.clean out2 el2 := hclean
      rw [hfail] at hclean2
      cases hclean2
    · have hskip : (Request.stateAt demoShell () overwriteJob 2).map
          (fun s => s.skipNonEssential) = some true := by decide
      rw [hstk] at hskip
      simp only [Option.map_some', Option.some.injEq] at hskip
      have hselk2 : Request.selected stk exportStep = true := hselk
      simp [Request.selected, hskip, exportStep] at hselk2)
  refine ⟨st2, h2, ?_⟩
  rw [h3, he]
  decide

/-- C7, where it fails: the first step of `brokenJob` names `X` in `IncludeInEnv` and its
command exits with status 1; after the run the env has no entry for `X`, although the entry
of the step in the result sequence has the error text as output. -/
theorem failed_step_output_not_in_env :
    brokenJob.Env.present = true ∧ brokenStep.IncludeInEnv = "X" ∧
      (Request.shellResult demoShell (Request.start () brokenJob) brokenStep).1 =
        ExecResult.exitError 1 "exit status 1" ∧
      (Request.Run demoShell () brokenJob).map
          (fun r => (r.env.lookup "X", r.steps.map (fun e => e.Output))) =
        some (none, ["exit status 1"]) := by
  decide

/-- C7, amended: when a step is executed and the executor returns an error (a process-exit
error of any code, or a spawn fault), the env after the step is the env before it, whatever
the step names in `IncludeInEnv`: the entry built for the step has an empty `IncludeInEnv`,
so its output, the error text, is not written to the env. -/
theorem failed_step_leaves_env {σ : Type} (sh : Shell σ) (w : σ) (t : Request) (i : Nat)
    (hi : i < t.Commands.length) (st : LoopState σ) (text : String)
    (hst : Request.stateAt sh w t i = some st)
    (hsel : Request.selected st t.Commands[i] = true)
    (hsh : (∃ code, (Request.shellResult sh st t.Commands[i]).1 =
        ExecResult.exitError code text) ∨
      (Request.shellResult sh st t.Commands[i]).1 = ExecResult.fault text) :
    ∃ st1 e, Request.stateAt sh w t (i + 1) = some st1 ∧ st1.result = st.result ++ [e] ∧
      e.Output = text ∧ e.IncludeInEnv = "" ∧ st1.env = st.env := by
  have hnext : Request.stateAt sh w t (i + 1) = some
      { skipNonEssential := true, result := st.result ++ [Request.synthetic t.Commands[i] text],
        env := st.env, world := (Request.shellResult sh st t.Commands[i]).2 } := by
    rw [stateAt_succ sh w t i hi, hst]
    exact iterate_error sh st _ text hsel hsh
  exact ⟨_, Request.synthetic t.Commands[i] text, hnext, rfl, rfl, rfl, rfl⟩

theorem failed_step_leaves_env_witness :
    ∃ st1 e, Request.stateAt demoShell () brokenJob 1 = some st1 ∧
      st1.result = (Request.start () brokenJob).result ++ [e] ∧
      e.Output = "exit status 1" ∧ e.IncludeInEnv = "" ∧
      st1.env = (Request.start () brokenJob).env :=
  failed_step_leaves_env demoShell () brokenJob 0 (by decide) (Request.start () brokenJob)
    "exit status 1" (stateAt_zero _ _ _) (by decide) (Or.inl ⟨1, by decide⟩)

/-- C8: when a step is executed and the executor returns an error (a process-exit error of
any code, or a spawn fault), the entry appended to the result sequence has the job step's
title, slug, command and check, the error text as output, exit code 1 and zero values in all
other fields. The run does not stop there: the next iteration starts from the state this one
left, and if the step was the last one `Request.Run` returns with that result sequence. -/
theorem error_entry_is_synthetic {σ : Type} (sh : Shell σ) (w : σ) (t : Request) (i : Nat)
    (hi : i < t.Commands.length) (st : LoopState σ) (text : String)
    (hst : Request.stateAt sh w t i = some st)
    (hsel : Request.selected st t.Commands[i] = true)
    (hsh : (∃ code, (Request.shellResult sh st t.Commands[i]).1 =
        ExecResult.exitError code text) ∨
      (Request.shellResult sh st t.Commands[i]).1 = ExecResult.fault text) :
    ∃ st1 e, Request.stateAt sh w t (i + 1) = some st1 ∧
      e = { Title := t.Commands[i].Title, Slug := t.Commands[i].Slug,
            Command := t.Commands[i].Command, Check := t.Commands[i].Check,
            Output := text, ExitCode := 1 } ∧
      st1.result = st.result ++ [e] ∧
      (∀ res, Request.Run sh w t = some res → res.steps[st.result.length]? = some e) ∧
      (∀ (hn : i + 1 < t.Commands.length),
        Request.stateAt sh w t (i + 2) = Request.iterate sh st1 t.Commands[i + 1]) ∧
      (i + 1 = t.Commands.length →
        ∃ res, Request.Run sh w t = some res ∧ res.steps = st1.result) := by
  have hnext : Request.stateAt sh w t (i + 1) = some
      { skipNonEssential := true, result := st.result ++ [Request.synthetic t.Commands[i] text],
        env := st.env, world := (Request.shellResult sh st t.Commands[i]).2 } := by
    rw [stateAt_succ sh w t i hi, hst]
    exact iterate_error sh st _ text hsel hsh
  refine ⟨_, _, hnext, rfl, rfl, ?_, ?_, ?_⟩
  · intro res hres
    exact run_entry_at sh w t (i + 1) st _ _ res hnext rfl hres
  · intro hn
    rw [stateAt_succ sh w t (i + 1) hn, hnext]
    rfl
  · intro hlast
    refine ⟨{ success := false, steps := st.result ++ [Request.synthetic t.Commands[i] text],
              env := st.env, world := (Request.shellResult sh st t.Commands[i]).2 }, ?_, rfl⟩
    rw [run_eq, ← hlast, hnext]
    rfl

theorem error_entry_is_synthetic_witness :
    ∃ st1 e, Request.stateAt demoShell () failJob 1 = some st1 ∧
      e = { Title := failStep.Title, Slug := failStep.Slug,
            Command := failStep.Command, Check := failStep.Check,
            Output := "exit status 1", ExitCode := 1 } ∧
      st1.result = (Request.start () failJob).result ++ [e] ∧
      (∀ res, Request.Run demoShell () failJob = some res →
        res.steps[(Request.start () failJob).result.length]? = some e) ∧
      (∀ (hn : 0 + 1 < failJob.Commands.length),
        Request.stateAt demoShell () failJob (0 + 2) =
          Request.iterate demoShell st1 failJob.Commands[0 + 1]) ∧
      (0 + 1 = failJob.Commands.length →
        ∃ res, Request.Run demoShell () failJob = some res ∧ res.steps = st1.result) :=
  error_entry_is_synthetic demoShell () failJob 0 (by decide) (Request.start () failJob)
    "exit status 1" (stateAt_zero _ _ _) (by decide) (Or.inl ⟨1, by decide⟩)

/-- C9: the output of a failed step with `IncludeOutput` unset is meant to be its fail
message, and lines 76-78 of `Command.Run` do append `FailMessage` to the output of the step
they return. The first step of `brokenJob` arrives with empty output, has `IncludeOutput`
unset and the fail message `boom`, and its command exits with status 1: `Command.Run`
returns it with output `boom`, yet its entry in the result sequence of `Request.Run` has the
error text as output, because lines 107-114 replace the returned step. -/
theorem failed_output_is_not_fail_message :
    (∀ c ∈ brokenJob.Commands, c.Output = "") ∧ brokenStep.IncludeOutput = false ∧
      brokenStep.FailMessage = "boom" ∧
      (Request.shellResult demoShell (Request.start () brokenJob) brokenStep).1 =
        ExecResult.exitError 1 "exit status 1" ∧
      (Command.Run demoShell () brokenStep brokenJob.Env).1.1.Output = "boom" ∧
      (Request.Run demoShell () brokenJob).map (fun r => r.steps.map (fun e => e.Output)) =
        some ["exit status 1"] ∧
      "exit status 1" ≠ "boom" := by
  decide

/-- What the result sequence holds for a step with `IncludeOutput` unset, in a job whose
steps arrive with empty output: the entry of an executed step has the empty string as output
if the command exited cleanly, whatever it printed, and the text of the executor's error if
it did not (a process-exit error of any code, or a spawn fault). With a present env the
iteration does append the entry. -/
theorem output_without_include_output {σ : Type} (sh : Shell σ) (w : σ) (t : Request)
    (i : Nat) (hi : i < t.Commands.length) (st : LoopState σ)
    (hempty : ∀ c ∈ t.Commands, c.Output = "")
    (hst : Request.stateAt sh w t i = some st)
    (hsel : Request.selected st t.Commands[i] = true)
    (hinc : t.Commands[i].IncludeOutput = false) :
    ∃ e, (∀ st1, Request.stateAt sh w t (i + 1) = some st1 → st1.result = st.result ++ [e]) ∧
      (t.Env.present = true → ∃ st1, Request.stateAt sh w t (i + 1) = some st1) ∧
      (∀ res, Request.Run sh w t = some res → res.steps[st.result.length]? = some e) ∧
      (∀ out el, (Request.shellResult sh st t.Commands[i]).1 = ExecResult.clean out el →
        e.Output = "") ∧
      (∀ text, ((∃ code, (Request.shellResult sh st t.Commands[i]).1 =
            ExecResult.exitError code text) ∨
          (Request.shellResult sh st t.Commands[i]).1 = ExecResult.fault text) →
        e.Output = text) := by
  have happ : ∀ st1, Request.stateAt sh w t (i + 1) = some st1 →
      st1.result = st.result ++ [Request.entry sh st t.Commands[i]] := by
    intro st1 h1
    rw [stateAt_succ sh w t i hi, hst] at h1
    have := (iterate_spec sh st st1 _ h1).1
    simpa [hsel] using this
  refine ⟨Request.entry sh st t.Commands[i], happ, ?_, ?_, ?_, ?_⟩
  · intro henv
    obtain ⟨st1, h1, _⟩ := stateAt_present sh w t (i + 1) henv
    exact ⟨st1, h1⟩
  · intro res hres
    rw [run_eq] at hres
    cases hl : Request.stateAt sh w t t.Commands.length with
    | none => simp [hl] at hres
    | some stl =>
      obtain ⟨st1, h1, _⟩ := stateAt_le sh w t (i + 1) _ hi stl hl
      have hres2 : Request.Run sh w t = some res := by
        rw [run_eq]
        exact hres
      exact run_entry_at sh w t (i + 1) st st1 _ res h1 (happ st1 h1) hres2
  · intro out el hc
    rw [entry_clean sh st _ out el hc, onClean_eq]
    simp [hinc, hempty _ (List.getElem_mem _)]
  · intro text he
    rw [entry_error sh st _ text he]
    rfl

/-- The fail message of a step has no effect on the output of its entry: a step that differs
only in `FailMessage` gets an entry with the same output. -/
theorem entry_output_ignores_fail_message {σ : Type} (sh : Shell σ) (st : LoopState σ)
    (c : Command) (message : String) :
    (Request.entry sh st { c with FailMessage := message }).Output =
      (Request.entry sh st c).Output := by
  have hshell : Request.shellResult sh st { c with FailMessage := message } =
      Request.shellResult sh st c := rfl
  rcases shellResult_cases sh st c with ⟨out, el, h⟩ | ⟨text, h⟩
  · rw [entry_clean sh st c out el h,
      entry_clean sh st { c with FailMessage := message } out el (by rw [hshell]; exact h),
      onClean_eq, onClean_eq]
  · rw [entry_error sh st c text h,
      entry_error sh st { c with FailMessage := message } text (by rw [hshell]; exact h)]
    rfl

theorem output_without_include_output_witness :
    ∃ e, (∀ st1, Request.stateAt demoShell () brokenJob 1 = some st1 →
        st1.result = (Request.start () brokenJob).result ++ [e]) ∧
      (brokenJob.Env.present = true → ∃ st1, Request.stateAt demoShell () brokenJob 1 = some st1) ∧
      (∀ res, Request.Run demoShell () brokenJob = some res →
        res.steps[(Request.start () brokenJob).result.length]? = some e) ∧
      (∀ out el, (Request.shellResult demoShell (Request.start () brokenJob) brokenStep).1 =
        ExecResult.clean out el → e.Output = "") ∧
      (∀ text, ((∃ code, (Request.shellResult demoShell (Request.start () brokenJob)
            brokenStep).1 = ExecResult.exitError code text) ∨
          (Request.shellResult demoShell (Request.start () brokenJob) brokenStep).1 =
            ExecResult.fault text) →
        e.Output = text) :=
  output_without_include_output demoShell () brokenJob 0 (by decide)
    (Request.start () brokenJob) (by decide) (stateAt_zero _ _ _) (by decide) (by decide)

/-- C10: in a job with a present env the loop reaches every position, and a step that has
`RunOnFail` set, or that is reached while `skipNonEssential` is still unset, is executed:
the shell is called on its command (the world moves on by that call) and the iteration
appends exactly one entry, which carries the step's title, slug, command and check. The run
returns, and its result sequence is the entries of the earlier steps, that one entry, and
the entries of the later steps. -/
theorem run_on_fail_is_executed {σ : Type} (sh : Shell σ) (w : σ) (t : Request) (i : Nat)
    (hi : i < t.Commands.length) (henv : t.Env.present = true) :
    ∃ st, Request.stateAt sh w t i = some st ∧ st.result.length ≤ i ∧
      ((t.Commands[i].RunOnFail = true ∨ st.skipNonEssential = false) →
        ∃ st1 e, Request.stateAt sh w t (i + 1) = some st1 ∧
          e = Request.entry sh st t.Commands[i] ∧
          st1.world = (Request.shellResult sh st t.Commands[i]).2 ∧
          st1.result = st.result ++ [e] ∧
          e.Title = t.Commands[i].Title ∧ e.Slug = t.Commands[i].Slug ∧
          e.Command = t.Commands[i].Command ∧ e.Check = t.Commands[i].Check ∧
          ∃ res tail, Request.Run sh w t = some res ∧ res.steps = st.result ++ e :: tail ∧
            tail.length ≤ t.Commands.length - (i + 1)) := by
  obtain ⟨st, hst, _⟩ := stateAt_present sh w t i henv
  refine ⟨st, hst, stateAt_result_length sh w t i st hst, ?_⟩
  intro hrun
  have hsel : Request.selected st t.Commands[i] = true := by
    rcases hrun with h | h <;> simp [Request.selected, h]
  obtain ⟨st1, h1, _⟩ := stateAt_present sh w t (i + 1) henv
  have hit : Request.iterate sh st t.Commands[i] = some st1 := by
    rw [stateAt_succ sh w t i hi, hst] at h1
    exact h1
  obtain ⟨hr, _, _, hw⟩ := iterate_spec sh st st1 _ hit
  simp only [hsel, if_true] at hr hw
  obtain ⟨hT, hS, hC, hK⟩ := entry_fields sh st t.Commands[i]
  refine ⟨st1, _, h1, rfl, hw, hr, hT, hS, hC, hK, ?_⟩
  obtain ⟨stl, hl, _⟩ := stateAt_present sh w t t.Commands.length henv
  obtain ⟨s1, hs1, hloop⟩ := stateAt_le sh w t (i + 1) _ hi stl hl
  rw [h1] at hs1
  cases hs1
  obtain ⟨tail, ht, hlen⟩ := loop_result sh st1 stl _ hloop
  refine ⟨{ success := !stl.skipNonEssential, steps := stl.result, env := stl.env,
            world := stl.world }, tail, ?_, ?_, ?_⟩
  · rw [run_eq, hl]
    rfl
  · show stl.result = _
    rw [ht, hr, List.append_assoc]
    rfl
  · simpa using hlen

theorem run_on_fail_is_executed_witness :
    ∃ st, Request.stateAt demoShell () failJob 2 = some st ∧ st.result.length ≤ 2 ∧
      ((reportStep.RunOnFail = true ∨ st.skipNonEssential = false) →
        ∃ st1 e, Request.stateAt demoShell () failJob (2 + 1) = some st1 ∧
          e = Request.entry demoShell st reportStep ∧
          st1.world = (Request.shellResult demoShell st reportStep).2 ∧
          st1.result = st.result ++ [e] ∧
          e.Title = reportStep.Title ∧ e.Slug = reportStep.Slug ∧
          e.Command = reportStep.Command ∧ e.Check = reportStep.Check ∧
          ∃ res tail, Request.Run demoShell () failJob = some res ∧
            res.steps = st.result ++ e :: tail ∧
            tail.length ≤ failJob.Commands.length - (2 + 1)) :=
  run_on_fail_is_executed demoShell () failJob 2 (by decide) (by decide)

/-- On the nil map, a selected step that exits cleanly and names a key in `IncludeInEnv`
makes the iteration panic. -/
theorem iterate_nil_env_panics {σ : Type} (sh : Shell σ) (st : LoopState σ) (c : Command)
    (out : String) (el : Int) (hsel : Request.selected st c = true)
    (hsh : (Request.shellResult sh st c).1 = ExecResult.clean out el)
    (hnil : st.env = Env.nil) (hkey : c.IncludeInEnv ≠ "") :
    Request.iterate sh st c = none := by
  rw [iterate_clean sh st c out el hsel hsh, hnil]
  simp [hkey, Env.store]

/-- C11: the pass is meant to complete for every job that parses, an absent env included. On
`noEnvExportJob`, whose record has no `env`, the one step exits cleanly and names `X` in
`IncludeInEnv`; the write of its output into the nil map panics, so `Request.Run` returns no
verdict and no result sequence, and `HandleRecord` builds no response. -/
theorem env_write_on_absent_env_panics :
    noEnvExportJob.Env.present = false ∧
      (Request.shellResult demoShell (Request.start () noEnvExportJob) exportStep).1 =
        ExecResult.clean "ok\n" 5 ∧
      exportStep.IncludeInEnv = "X" ∧
      (Request.iterate demoShell (Request.start () noEnvExportJob) exportStep).isNone = true ∧
      (Request.Run demoShell () noEnvExportJob).isNone = true ∧
      (HandleRecord (fun _ => Except.ok noEnvExportJob) demoShell ()
        { Body := "" }).isNone = true := by
  decide

/-- C12, where it fails: `exportJob` arrives with `X = before` in its env; its first step
exits cleanly and names `X` in `IncludeInEnv`, and the request echoed in the response of
`HandleRecord` has the step's output under `X`, not the value received. -/
theorem response_env_is_not_inbound_env :
    exportJob.Env.lookup "X" = some "before" ∧
      (HandleRecord (fun _ => Except.ok exportJob) demoShell () { Body := "" }).map
          (fun p => match p.1 with
            | Except.ok resp => resp.Request.Env.lookup "X"
            | Except.error _ => none) = some (some "ok\n") ∧
      some "ok\n" ≠ some "before" := by
  decide

/-- C12, amended: for every job that parses, the request of every response `HandleRecord`
builds has the commands as received and the env as the run left it; that env agrees with the
inbound env at every key that no step of the job names in `IncludeInEnv`. With a present env
a response is built. -/
theorem response_request {σ : Type} (sh : Shell σ) (w : σ) (t : Request)
    (unmarshal : String → Except String Request) (msg : SQSMessage)
    (hparse : unmarshal msg.Body = Except.ok t) :
    (∀ resp w1, HandleRecord unmarshal sh w msg = some (Except.ok resp, w1) →
      resp.Request.Commands = t.Commands ∧
      (∃ res, Request.Run sh w t = some res ∧ resp.Request.Env = res.env ∧
        resp.Steps = res.steps) ∧
      ∀ x, (∀ c ∈ t.Commands, c.IncludeInEnv ≠ x) →
        resp.Request.Env.lookup x = t.Env.lookup x) ∧
    (t.Env.present = true →
      ∃ resp w1, HandleRecord unmarshal sh w msg = some (Except.ok resp, w1)) := by
  constructor
  · intro resp w1 h
    simp only [HandleRecord, hparse] at h
    cases hres : Request.Run sh w t with
    | none => simp [hres] at h
    | some res =>
      simp only [hres, Option.some.injEq, Prod.mk.injEq, Except.ok.injEq] at h
      obtain ⟨h1, _⟩ := h
      subst h1
      refine ⟨rfl, ⟨res, rfl, rfl, rfl⟩, ?_⟩
      intro x hx
      simp only [Request.Run] at hres
      cases hl : Request.loop sh (Request.start w t) t.Commands with
      | none => simp [hl] at hres
      | some stl =>
        simp only [hl, Option.some.injEq] at hres
        subst hres
        exact loop_env_frame sh _ stl _ x hl hx
  · intro henv
    obtain ⟨res, hres⟩ := run_total sh w t henv
    refine ⟨{ Conclusion := if res.success then Conclusion.Success else Conclusion.Failure,
              Steps := res.steps, Request := { Env := res.env, Commands := t.Commands } },
            res.world, ?_⟩
    simp only [HandleRecord, hparse, hres]

theorem response_request_witness :
    (∀ resp w1, HandleRecord (fun _ => Except.ok exportJob) demoShell () { Body := "" } =
        some (Except.ok resp, w1) →
      resp.Request.Commands = exportJob.Commands ∧
      (∃ res, Request.Run demoShell () exportJob = some res ∧ resp.Request.Env = res.env ∧
        resp.Steps = res.steps) ∧
      ∀ x, (∀ c ∈ exportJob.Commands, c.IncludeInEnv ≠ x) →
        resp.Request.Env.lookup x = exportJob.Env.lookup x) ∧
    (exportJob.Env.present = true →
      ∃ resp w1, HandleRecord (fun _ => Except.ok exportJob) demoShell () { Body := "" } =
        some (Except.ok resp, w1)) :=
  response_request demoShell () exportJob (fun _ => Except.ok exportJob) { Body := "" } rfl

/-- C13: the working directory `Command.Run` gives the shell. It is the root when the env has
no `DIR` key, the value of `DIR` when the key is present and the slug is neither `clone` nor
`git_config`, and the root for the slugs `clone` and `git_config` whatever `DIR` holds; and
that directory is the one the command is run in: replacing the directory argument of the
shell by it changes nothing in what `Command.Run` returns. -/
theorem working_directory {σ : Type} (sh : Shell σ) (w : σ) (r : Command) (env : Env) :
    (env.lookup "DIR" = none → r.dir env = "/") ∧
    (∀ val, env.lookup "DIR" = some val → r.Slug ≠ "clone" → r.Slug ≠ "git_config" →
      r.dir env = val) ∧
    (r.Slug = "clone" ∨ r.Slug = "git_config" → r.dir env = "/") ∧
    Command.Run sh w r env =
      Command.Run (fun w2 cmd _ m => sh w2 cmd (r.dir env) m) w r env := by
  refine ⟨?_, ?_, ?_, rfl⟩
  · intro h
    simp [Command.dir, h]
  · intro val h h1 h2
    simp [Command.dir, h, h1, h2]
  · intro h
    unfold Command.dir
    cases env.lookup "DIR" with
    | none => rfl
    | some val => rcases h with h | h <;> simp [h]

theorem working_directory_witness :
    (dirEnv.lookup "DIR" = none → cloneStep.dir dirEnv = "/") ∧
    (∀ val, dirEnv.lookup "DIR" = some val → cloneStep.Slug ≠ "clone" →
      cloneStep.Slug ≠ "git_config" → cloneStep.dir dirEnv = val) ∧
    (cloneStep.Slug = "clone" ∨ cloneStep.Slug = "git_config" → cloneStep.dir dirEnv = "/") ∧
    Command.Run demoShell () cloneStep dirEnv =
      Command.Run (fun w2 cmd _ m => demoShell w2 cmd (cloneStep.dir dirEnv) m) ()
        cloneStep dirEnv :=
  working_directory demoShell () cloneStep dirEnv

theorem commandRun_clean {σ : Type} (sh : Shell σ) (w : σ) (r : Command) (env : Env)
    (out : String) (el : Int)
    (h : (sh w r.Command (r.dir env) env.lookup).1 = ExecResult.clean out el) :
    (Command.Run sh w r env).1 = (r.onClean out el, none) := by
  rcases hs : sh w r.Command (r.dir env) env.lookup with ⟨o, w1⟩
  rw [hs] at h
  simp only at h
  subst h
  simp [Command.Run, hs]

theorem commandRun_exitError {σ : Type} (sh : Shell σ) (w : σ) (r : Command) (env : Env)
    (code : Int) (text : String)
    (h : (sh w r.Command (r.dir env) env.lookup).1 = ExecResult.exitError code text) :
    (Command.Run sh w r env).1 = (r.onExitError code, some text) := by
  rcases hs : sh w r.Command (r.dir env) env.lookup with ⟨o, w1⟩
  rw [hs] at h
  simp only at h
  subst h
  simp [Command.Run, hs]

theorem commandRun_fault {σ : Type} (sh : Shell σ) (w : σ) (r : Command) (env : Env)
    (text : String)
    (h : (sh w r.Command (r.dir env) env.lookup).1 = ExecResult.fault text) :
    (Command.Run sh w r env).1 = (r, some text) := by
  rcases hs : sh w r.Command (r.dir env) env.lookup with ⟨o, w1⟩
  rw [hs] at h
  simp only at h
  subst h
  simp [Command.Run, hs]

theorem onExitError_eq (r : Command) (code : Int) :
    r.onExitError code =
      { r with ExitCode := code,
               Output := if code ≠ 0 then r.Output ++ r.FailMessage else r.Output } := by
  unfold Command.onExitError
  by_cases h : code = 0 <;> simp [h]

/-- C14, where it fails: `applyStep` has zero result fields and the shell cannot be started;
`Command.Run` returns the step as it was, with `Completed = false` and `ExitCode = 0`, so
neither alternative of the invariant holds. -/
theorem fault_step_satisfies_neither :
    (applyStep.Completed = false ∧ applyStep.Duration = 0 ∧ applyStep.ExitCode = 0 ∧
        applyStep.Output = "") ∧
      (faultShell () applyStep.Command (applyStep.dir Env.nil) Env.nil.lookup).1 =
        ExecResult.fault "fork/exec /bin/sh: no such file or directory" ∧
      (Command.Run faultShell () applyStep Env.nil).1 =
        (applyStep, some "fork/exec /bin/sh: no such file or directory") ∧
      ¬ ((Command.Run faultShell () applyStep Env.nil).1.1.Completed = true ∧
          (Command.Run faultShell () applyStep Env.nil).1.1.ExitCode = 0) ∧
      ¬ ((Command.Run faultShell () applyStep Env.nil).1.1.ExitCode ≠ 0) := by
  decide

/-- C14, amended: for a step whose result fields are zero before execution, the step
`Command.Run` returns satisfies exactly one of (`Completed = true` and `ExitCode = 0`) and
(`ExitCode ≠ 0`) after a clean exit (the first) and after a process-exit error of non-zero
code (the second); after any other execution error the step comes back unchanged, with
`Completed = false` and `ExitCode = 0`, and satisfies neither. -/
theorem step_result_invariant {σ : Type} (sh : Shell σ) (w : σ) (r : Command) (env : Env)
    (hzero : r.Completed = false ∧ r.Duration = 0 ∧ r.ExitCode = 0 ∧ r.Output = "") :
    (∀ out el, (sh w r.Command (r.dir env) env.lookup).1 = ExecResult.clean out el →
      ((Command.Run sh w r env).1.1.Completed = true ∧
        (Command.Run sh w r env).1.1.ExitCode = 0) ∧
      ¬ ((Command.Run sh w r env).1.1.ExitCode ≠ 0)) ∧
    (∀ code text, (sh w r.Command (r.dir env) env.lookup).1 = ExecResult.exitError code text →
      code ≠ 0 →
      (Command.Run sh w r env).1.1.ExitCode ≠ 0 ∧
      ¬ ((Command.Run sh w r env).1.1.Completed = true ∧
        (Command.Run sh w r env).1.1.ExitCode = 0)) ∧
    (∀ text, (sh w r.Command (r.dir env) env.lookup).1 = ExecResult.fault text →
      (Command.Run sh w r env).1.1 = r ∧
      ¬ ((Command.Run sh w r env).1.1.Completed = true ∧
        (Command.Run sh w r env).1.1.ExitCode = 0) ∧
      ¬ ((Command.Run sh w r env).1.1.ExitCode ≠ 0)) := by
  refine ⟨?_, ?_, ?_⟩
  · intro out el h
    rw [commandRun_clean sh w r env out el h, onClean_eq]
    simp
  · intro code text h hc
    rw [commandRun_exitError sh w r env code text h, onExitError_eq]
    simp [hc]
  · intro text h
    rw [commandRun_fault sh w r env text h]
    simp [hzero.1, hzero.2.2.1]

theorem step_result_invariant_witness :
    (∀ out el, (demoShell () failStep.Command (failStep.dir Env.nil) Env.nil.lookup).1 =
        ExecResult.clean out el →
      ((Command.Run demoShell () failStep Env.nil).1.1.Completed = true ∧
        (Command.Run demoShell () failStep Env.nil).1.1.ExitCode = 0) ∧
      ¬ ((Command.Run demoShell () failStep Env.nil).1.1.ExitCode ≠ 0)) ∧
    (∀ code text, (demoShell () failStep.Command (failStep.dir Env.nil) Env.nil.lookup).1 =
        ExecResult.exitError code text →
      code ≠ 0 →
      (Command.Run demoShell () failStep Env.nil).1.1.ExitCode ≠ 0 ∧
      ¬ ((Command.Run demoShell () failStep Env.nil).1.1.Completed = true ∧
        (Command.Run demoShell () failStep Env.nil).1.1.ExitCode = 0)) ∧
    (∀ text, (demoShell () failStep.Command (failStep.dir Env.nil) Env.nil.lookup).1 =
        ExecResult.fault text →
      (Command.Run demoShell () failStep Env.nil).1.1 = failStep ∧
      ¬ ((Command.Run demoShell () failStep Env.nil).1.1.Completed = true ∧
        (Command.Run demoShell () failStep Env.nil).1.1.ExitCode = 0) ∧
      ¬ ((Command.Run demoShell () failStep Env.nil).1.1.ExitCode ≠ 0)) :=
  step_result_invariant demoShell () failStep Env.nil (by decide)

/-- C15: the failure path of the executor. When the command ends with a process-exit error
of code `c`, `Command.Run` returns a non-nil error (the text of that error) together with the
receiver in which `ExitCode` is `c`, `Output` is the previous output followed by
`FailMessage` when `c ≠ 0` (and the previous output when `c = 0`), and every other field,
`Completed` and `Duration` among them, is unchanged. And `Command.Run` returns a nil error
if and only if the command exits cleanly. -/
theorem executor_failure_path {σ : Type} (sh : Shell σ) (w : σ) (r : Command) (env : Env) :
    (∀ c text, (sh w r.Command (r.dir env) env.lookup).1 = ExecResult.exitError c text →
      (Command.Run sh w r env).1.2 = some text ∧
      (Command.Run sh w r env).1.1 =
        { r with ExitCode := c,
                 Output := if c ≠ 0 then r.Output ++ r.FailMessage else r.Output } ∧
      (Command.Run sh w r env).1.1.Completed = r.Completed ∧
      (Command.Run sh w r env).1.1.Duration = r.Duration) ∧
    ((Command.Run sh w r env).1.2 = none ↔
      ∃ out el, (sh w r.Command (r.dir env) env.lookup).1 = ExecResult.clean out el) := by
  constructor
  · intro c text h
    rw [commandRun_exitError sh w r env c text h, onExitError_eq]
    exact ⟨rfl, rfl, rfl, rfl⟩
  · rcases hs : (sh w r.Command (r.dir env) env.lookup).1 with _ | _ | _
    · rw [commandRun_clean sh w r env _ _ hs]
      simp
    · rw [commandRun_exitError sh w r env _ _ hs]
      simp
    · rw [commandRun_fault sh w r env _ hs]
      simp

theorem executor_failure_path_witness :
    (Command.Run demoShell () brokenStep Env.nil).1.2 = some "exit status 1" ∧
      (Command.Run demoShell () brokenStep Env.nil).1.1 =
        { brokenStep with
          ExitCode := 1,
          Output := if (1 : Int) ≠ 0 then brokenStep.Output ++ brokenStep.FailMessage
                    else brokenStep.Output } ∧
      (Command.Run demoShell () brokenStep Env.nil).1.1.Completed = brokenStep.Completed ∧
      (Command.Run demoShell () brokenStep Env.nil).1.1.Duration = brokenStep.Duration :=
  (executor_failure_path demoShell () brokenStep Env.nil).1 1 "exit status 1" (by decide)

/-- While every command executed so far has exited cleanly, the loop has not set
`skipNonEssential` and holds one entry per command processed. -/
theorem clean_upto {σ : Type} (sh : Shell σ) (w : σ) (t : Request) (k : Nat)
    (henv : t.Env.present = true)
    (hclean : ∀ i (hi : i < t.Commands.length), i < k → ∀ st : LoopState σ,
      Request.stateAt sh w t i = some st → Request.selected st t.Commands[i] = true →
      ∃ out el, (Request.shellResult sh st t.Commands[i]).1 = ExecResult.clean out el)
    (n : Nat) (hn : n ≤ k) (hnl : n ≤ t.Commands.length) :
    ∃ st, Request.stateAt sh w t n = some st ∧ st.skipNonEssential = false ∧
      st.env.present = true ∧ st.result.length = n ∧
      ∀ i (hi : i < t.Commands.length), i < n →
        ∃ sti, Request.stateAt sh w t i = some sti ∧
          st.result[i]? = some (Request.entry sh sti t.Commands[i]) := by
  induction n with
  | zero =>
    exact ⟨Request.start w t, stateAt_zero sh w t, rfl, henv, rfl, fun i _ hi => by omega⟩
  | succ n ih =>
    obtain ⟨st, hst, hskip, hpres, hlen, hall⟩ := ih (by omega) (by omega)
    have hn1 : n < t.Commands.length := by omega
    have hsel : Request.selected st t.Commands[n] = true := by simp [Request.selected, hskip]
    obtain ⟨out, el, hsh⟩ := hclean n hn1 (by omega) st hst hsel
    obtain ⟨env1, hit, hp1, _⟩ := iterate_clean_present sh st _ out el hsel hsh hpres
    have hnext : Request.stateAt sh w t (n + 1) = some
        { skipNonEssential := st.skipNonEssential,
          result := st.result ++ [t.Commands[n].onClean out el],
          env := env1, world := (Request.shellResult sh st t.Commands[n]).2 } := by
      rw [stateAt_succ sh w t n hn1, hst]
      exact hit
    refine ⟨_, hnext, hskip, hp1, by simp [hlen], ?_⟩
    intro i hi hin
    by_cases hieq : i = n
    · subst hieq
      refine ⟨st, hst, ?_⟩
      show (st.result ++ [t.Commands[i].onClean out el])[i]? = _
      rw [List.getElem?_append_right (by omega), entry_clean sh st _ out el hsh]
      simp [hlen]
    · obtain ⟨sti, h1, h2⟩ := hall i hi (by omega)
      refine ⟨sti, h1, ?_⟩
      show (st.result ++ [t.Commands[n].onClean out el])[i]? = _
      rw [List.getElem?_append_left (by omega)]
      exact h2

/-- C16: the exact shape of the result sequence. In a job with a present env, let `k` be the
position of the first executed step whose command does not exit cleanly, or the number of
steps if there is none. `Request.Run` returns, and its result sequence is a head of one entry
for each step at the positions `0 .. k` (the entry each of these steps appends where the loop
reaches it), followed by a tail of one entry for each step after `k` that has `RunOnFail`,
in job order, and nothing else; with no such step the head has one entry for every step and
the tail is empty. The verdict is success exactly when there is no such step. -/
theorem result_shape {σ : Type} (sh : Shell σ) (w : σ) (t : Request) (k : Nat)
    (hk : k ≤ t.Commands.length) (henv : t.Env.present = true)
    (hclean : ∀ i (hi : i < t.Commands.length), i < k → ∀ st : LoopState σ,
      Request.stateAt sh w t i = some st → Request.selected st t.Commands[i] = true →
      ∃ out el, (Request.shellResult sh st t.Commands[i]).1 = ExecResult.clean out el)
    (hfail : ∀ (hkl : k < t.Commands.length) (st : LoopState σ),
      Request.stateAt sh w t k = some st → Request.selected st t.Commands[k] = true →
      ∃ text, (∃ code, (Request.shellResult sh st t.Commands[k]).1 =
          ExecResult.exitError code text) ∨
        (Request.shellResult sh st t.Commands[k]).1 = ExecResult.fault text) :
    ∃ res head tail, Request.Run sh w t = some res ∧ res.steps = head ++ tail ∧
      head.length = min (k + 1) t.Commands.length ∧
      (∀ i (hi : i < t.Commands.length), i ≤ k →
        ∃ sti, Request.stateAt sh w t i = some sti ∧
          Request.selected sti t.Commands[i] = true ∧
          head[i]? = some (Request.entry sh sti t.Commands[i])) ∧
      List.Forall₂ Request.FromRunOnFail tail
        ((t.Commands.drop (k + 1)).filter (fun c => c.RunOnFail)) ∧
      (res.success = true ↔ k = t.Commands.length) := by
  obtain ⟨st, hst, hskip, hpres, hlen, hall⟩ :=
    clean_upto sh w t k henv hclean k (Nat.le_refl _) hk
  have hselAll : ∀ i (hi : i < t.Commands.length), i < k → ∀ sti : LoopState σ,
      Request.stateAt sh w t i = some sti → Request.selected sti t.Commands[i] = true := by
    intro i hi hik sti hsti
    obtain ⟨s, hs, hsk, _⟩ := clean_upto sh w t k henv hclean i (by omega) (by omega)
    rw [hsti] at hs
    cases hs
    simp [Request.selected, hsk]
  by_cases hkl : k < t.Commands.length
  · have hsel : Request.selected st t.Commands[k] = true := by simp [Request.selected, hskip]
    obtain ⟨text, herr⟩ := hfail hkl st hst hsel
    have hnext : Request.stateAt sh w t (k + 1) = some
        { skipNonEssential := true,
          result := st.result ++ [Request.synthetic t.Commands[k] text],
          env := st.env, world := (Request.shellResult sh st t.Commands[k]).2 } := by
      rw [stateAt_succ sh w t k hkl, hst]
      exact iterate_error sh st _ text hsel herr
    obtain ⟨stl, hl, _⟩ := stateAt_present sh w t t.Commands.length henv
    obtain ⟨s1, hs1, hloop⟩ := stateAt_le sh w t (k + 1) _ hkl stl hl
    rw [hnext] at hs1
    cases hs1
    rw [List.take_length] at hloop
    obtain ⟨tail, ht, hf⟩ := loop_skipping sh _ stl _ hloop rfl
    refine ⟨{ success := !stl.skipNonEssential, steps := stl.result, env := stl.env,
              world := stl.world },
            st.result ++ [Request.synthetic t.Commands[k] text], tail, ?_, ht, ?_, ?_, hf, ?_⟩
    · rw [run_eq, hl]
      rfl
    · simp only [List.length_append, List.length_singleton, hlen]
      omega
    · intro i hi hik
      by_cases hieq : i = k
      · subst hieq
        refine ⟨st, hst, hsel, ?_⟩
        rw [List.getElem?_append_right (by omega), entry_error sh st _ text herr]
        simp [hlen]
      · obtain ⟨sti, h1, h2⟩ := hall i hi (by omega)
        refine ⟨sti, h1, hselAll i hi (by omega) sti h1, ?_⟩
        rw [List.getElem?_append_left (by omega)]
        exact h2
    · have hsk : stl.skipNonEssential = true := loop_skip_mono sh _ stl _ hloop rfl
      simp only [hsk, Bool.not_true]
      constructor
      · intro h
        cases h
      · intro h
        omega
  · have hkeq : k = t.Commands.length := by omega
    subst hkeq
    refine ⟨{ success := !st.skipNonEssential, steps := st.result, env := st.env,
              world := st.world }, st.result, [], ?_, by simp, ?_, ?_, ?_, ?_⟩
    · rw [run_eq, hst]
      rfl
    · rw [hlen]
      omega
    · intro i hi hik
      obtain ⟨sti, h1, h2⟩ := hall i hi hi
      exact ⟨sti, h1, hselAll i hi hi sti h1, h2⟩
    · rw [List.drop_of_length_le (by omega)]
      simp
    · simp [hskip]

theorem result_shape_witness :
    ∃ res head tail, Request.Run demoShell () failJob = some res ∧ res.steps = head ++ tail ∧
      head.length = min (0 + 1) failJob.Commands.length ∧
      (∀ i (hi : i < failJob.Commands.length), i ≤ 0 →
        ∃ sti, Request.stateAt demoShell () failJob i = some sti ∧
          Request.selected sti failJob.Commands[i] = true ∧
          head[i]? = some (Request.entry demoShell sti failJob.Commands[i])) ∧
      List.Forall₂ Request.FromRunOnFail tail
        ((failJob.Commands.drop (0 + 1)).filter (fun c => c.RunOnFail)) ∧
      (res.success = true ↔ 0 = failJob.Commands.length) :=
  result_shape demoShell () failJob 0 (by decide) (by decide)
    (fun i _ hi0 => absurd hi0 (Nat.not_lt_zero i))
    (fun _ st hst _ => by
      rw [stateAt_zero] at hst
      cases hst
      exact ⟨"exit status 1", Or.inl ⟨1, rfl⟩⟩)

/-- The entry an executed command appends has exit code 0 and is completed, or has exit
code 1 and is not. -/
theorem entry_exit_code {σ : Type} (sh : Shell σ) (st : LoopState σ) (c : Command) :
    ((Request.entry sh st c).ExitCode = 0 ∧ (Request.entry sh st c).Completed = true) ∨
    ((Request.entry sh st c).ExitCode = 1 ∧ (Request.entry sh st c).Completed = false) := by
  rcases shellResult_cases sh st c with ⟨out, el, h⟩ | ⟨text, h⟩
  · left
    rw [entry_clean sh st c out el h, onClean_eq]
    exact ⟨rfl, rfl⟩
  · right
    rw [entry_error sh st c text h]
    exact ⟨rfl, rfl⟩

/-- An iteration leaves `skipNonEssential` set exactly when it was set before or the command
was executed and its entry has exit code 1. -/
theorem iterate_skip_iff {σ : Type} (sh : Shell σ) (st st1 : LoopState σ) (c : Command)
    (h : Request.iterate sh st c = some st1) :
    st1.skipNonEssential = true ↔
      (st.skipNonEssential = true ∨
        (Request.selected st c = true ∧ (Request.entry sh st c).ExitCode = 1)) := by
  by_cases hsel : Request.selected st c = true
  · rcases shellResult_cases sh st c with ⟨out, el, hc⟩ | ⟨text, he⟩
    · rw [iterate_clean sh st c out el hsel hc] at h
      simp only [Option.map_eq_some'] at h
      obtain ⟨env1, _, h1⟩ := h
      subst h1
      rw [entry_clean sh st c out el hc, onClean_eq]
      simp
    · rw [iterate_error sh st c text hsel he] at h
      simp only [Option.some.injEq] at h
      subst h
      rw [entry_error sh st c text he]
      simp [hsel, Request.synthetic]
  · simp only [Bool.not_eq_true] at hsel
    rw [iterate_not_selected sh st c hsel] at h
    simp only [Option.some.injEq] at h
    subst h
    simp [hsel]

/-- The loop keeps: every entry has exit code 0 and is completed, or has exit code 1 and is
not; and `skipNonEssential` is set exactly when some entry has exit code 1. -/
theorem loop_exit_codes {σ : Type} (sh : Shell σ) (st st2 : LoopState σ) (xs : List Command)
    (h : Request.loop sh st xs = some st2)
    (hgood : ∀ e ∈ st.result, (e.ExitCode = 0 ∧ e.Completed = true) ∨
      (e.ExitCode = 1 ∧ e.Completed = false))
    (hskip : st.skipNonEssential = true ↔ ∃ e ∈ st.result, e.ExitCode = 1) :
    (∀ e ∈ st2.result, (e.ExitCode = 0 ∧ e.Completed = true) ∨
      (e.ExitCode = 1 ∧ e.Completed = false)) ∧
    (st2.skipNonEssential = true ↔ ∃ e ∈ st2.result, e.ExitCode = 1) := by
  induction xs generalizing st with
  | nil =>
    simp only [Request.loop, Option.some.injEq] at h
    subst h
    exact ⟨hgood, hskip⟩
  | cons c xs ih =>
    simp only [Request.loop] at h
    cases hc : Request.iterate sh st c with
    | none => simp [hc] at h
    | some st1 =>
      rw [hc] at h
      have hr := (iterate_spec sh st st1 c hc).1
      have hs := iterate_skip_iff sh st st1 c hc
      apply ih st1 h
      · intro e he
        rw [hr, List.mem_append] at he
        rcases he with he | he
        · exact hgood e he
        · by_cases hsel : Request.selected st c = true
          · simp only [hsel, if_true, List.mem_singleton] at he
            subst he
            exact entry_exit_code sh st c
          · simp [hsel] at he
      · rw [hs, hskip, hr]
        constructor
        · rintro (⟨e, he, h1⟩ | ⟨hsel, h1⟩)
          · exact ⟨e, List.mem_append_left _ he, h1⟩
          · exact ⟨_, List.mem_append_right _ (by simp [hsel]), h1⟩
        · rintro ⟨e, he, h1⟩
          rw [List.mem_append] at he
          rcases he with he | he
          · exact Or.inl ⟨e, he, h1⟩
          · by_cases hsel : Request.selected st c = true
            · simp only [hsel, if_true, List.mem_singleton] at he
              subst he
              exact Or.inr ⟨hsel, h1⟩
            · simp [hsel] at he

/-- C17: in a job with a present env `Request.Run` returns, every entry of its result
sequence has exit code 0 or 1 and is completed if and only if its exit code is 0, and the
verdict is success if and only if every entry has exit code 0. -/
theorem exit_codes_and_verdict {σ : Type} (sh : Shell σ) (w : σ) (t : Request)
    (henv : t.Env.present = true) :
    ∃ res, Request.Run sh w t = some res ∧
      (∀ e ∈ res.steps, (e.ExitCode = 0 ∨ e.ExitCode = 1) ∧
        (e.Completed = true ↔ e.ExitCode = 0)) ∧
      (res.success = true ↔ ∀ e ∈ res.steps, e.ExitCode = 0) := by
  obtain ⟨stl, hl, _⟩ := loop_total sh (Request.start w t) t.Commands henv
  obtain ⟨hgood, hskip⟩ := loop_exit_codes sh (Request.start w t) stl t.Commands hl
    (by simp [Request.start]) (by simp [Request.start])
  refine ⟨{ success := !stl.skipNonEssential, steps := stl.result, env := stl.env,
            world := stl.world }, by simp [Request.Run, hl], ?_, ?_⟩
  · intro e he
    rcases hgood e he with ⟨h0, hc⟩ | ⟨h1, hc⟩
    · exact ⟨Or.inl h0, by simp [h0, hc]⟩
    · exact ⟨Or.inr h1, by simp [h1, hc]⟩
  · show (!stl.skipNonEssential) = true ↔ ∀ e ∈ stl.result, e.ExitCode = 0
    constructor
    · intro hs e he
      rcases hgood e he with ⟨h0, _⟩ | ⟨h1, _⟩
      · exact h0
      · exfalso
        have : stl.skipNonEssential = true := hskip.mpr ⟨e, he, h1⟩
        simp [this] at hs
    · intro hall
      by_cases hs : stl.skipNonEssential = true
      · obtain ⟨e, he, h1⟩ := hskip.mp hs
        have := hall e he
        omega
      · simpa using hs

theorem exit_codes_and_verdict_witness :
    ∃ res, Request.Run demoShell () failJob = some res ∧
      (∀ e ∈ res.steps, (e.ExitCode = 0 ∨ e.ExitCode = 1) ∧
        (e.Completed = true ↔ e.ExitCode = 0)) ∧
      (res.success = true ↔ ∀ e ∈ res.steps, e.ExitCode = 0) :=
  exit_codes_and_verdict demoShell () failJob (by decide)

/-- An iteration removes no key from the map. -/
theorem iterate_env_keeps {σ : Type} (sh : Shell σ) (st st1 : LoopState σ) (c : Command)
    (x v : String) (h : Request.iterate sh st c = some st1)
    (hx : st.env.lookup x = some v) : ∃ v2, st1.env.lookup x = some v2 := by
  by_cases hk : c.IncludeInEnv = x
  · by_cases hsel : Request.selected st c = true
    · rcases shellResult_cases sh st c with ⟨out, el, hc⟩ | ⟨text, he⟩
      · rw [iterate_clean sh st c out el hsel hc] at h
        by_cases hempty : c.IncludeInEnv = ""
        · simp only [hempty, bne_self_eq_false, Bool.false_eq_true, if_false,
            Option.map_some', Option.some.injEq] at h
          subst h
          exact ⟨v, hx⟩
        · simp only [bne_iff_ne, ne_eq, hempty, not_false_eq_true, if_true,
            Option.map_eq_some'] at h
          obtain ⟨env1, hs, h1⟩ := h
          subst h1
          rw [hk] at hs
          exact ⟨_, store_lookup_same st.env env1 x _ hs⟩
      · rw [iterate_error sh st c text hsel he] at h
        simp only [Option.some.injEq] at h
        subst h
        exact ⟨v, hx⟩
    · simp only [Bool.not_eq_true] at hsel
      rw [iterate_not_selected sh st c hsel] at h
      simp only [Option.some.injEq] at h
      subst h
      exact ⟨v, hx⟩
  · exact ⟨v, by rw [iterate_env_frame sh st st1 c x h hk]; exact hx⟩

/-- An iteration that changes the map at a key has executed a command that names the key in
`IncludeInEnv`. -/
theorem iterate_env_change {σ : Type} (sh : Shell σ) (st st1 : LoopState σ) (c : Command)
    (x : String) (h : Request.iterate sh st c = some st1)
    (hx : st1.env.lookup x ≠ st.env.lookup x) :
    Request.selected st c = true ∧ c.IncludeInEnv = x := by
  constructor
  · by_contra hsel
    simp only [Bool.not_eq_true] at hsel
    rw [iterate_not_selected sh st c hsel] at h
    simp only [Option.some.injEq] at h
    subst h
    exact hx rfl
  · by_contra hk
    exact hx (iterate_env_frame sh st st1 c x h hk)

/-- The env frame at every position of the pass. -/
theorem env_frame_upto {σ : Type} (sh : Shell σ) (w : σ) (t : Request) (x : String) (n : Nat)
    (hn : n ≤ t.Commands.length) (st : LoopState σ)
    (hst : Request.stateAt sh w t n = some st) :
    (∀ v, t.Env.lookup x = some v → ∃ v2, st.env.lookup x = some v2) ∧
    (st.env.lookup x ≠ t.Env.lookup x →
      ∃ i, ∃ (hi : i < t.Commands.length), ∃ sti, Request.stateAt sh w t i = some sti ∧
        Request.selected sti t.Commands[i] = true ∧ t.Commands[i].IncludeInEnv = x) := by
  induction n generalizing st with
  | zero =>
    rw [stateAt_zero] at hst
    cases hst
    exact ⟨fun v hv => ⟨v, hv⟩, fun h => absurd rfl h⟩
  | succ n ih =>
    have hn1 : n < t.Commands.length := by omega
    rw [stateAt_succ sh w t n hn1] at hst
    cases hp : Request.stateAt sh w t n with
    | none => simp [hp] at hst
    | some stp =>
      rw [hp] at hst
      have hit : Request.iterate sh stp t.Commands[n] = some st := hst
      obtain ⟨hkeep, hchg⟩ := ih (by omega) stp hp
      constructor
      · intro v hv
        obtain ⟨v1, h1⟩ := hkeep v hv
        exact iterate_env_keeps sh stp st _ x v1 hit h1
      · intro hne
        by_cases hsame : st.env.lookup x = stp.env.lookup x
        · exact hchg (by rw [← hsame]; exact hne)
        · obtain ⟨hsel, hk⟩ := iterate_env_change sh stp st _ x hit hsame
          exact ⟨n, hn1, stp, hp, hsel, hk⟩

/-- C18: the env frame. In a job with a present env `Request.Run` returns, and in the env it
leaves every key that was present before the run is still present; a key whose value differs
from the one before the run, or that is new, is the `IncludeInEnv` of some step that was
executed; a key that no executed step names in `IncludeInEnv` has its original value (or is
still absent). -/
theorem env_frame {σ : Type} (sh : Shell σ) (w : σ) (t : Request)
    (henv : t.Env.present = true) :
    ∃ res, Request.Run sh w t = some res ∧ res.env.present = true ∧
      ∀ x,
        (∀ v, t.Env.lookup x = some v → ∃ v2, res.env.lookup x = some v2) ∧
        (res.env.lookup x ≠ t.Env.lookup x →
          ∃ i, ∃ (hi : i < t.Commands.length), ∃ sti,
            Request.stateAt sh w t i = some sti ∧
            Request.selected sti t.Commands[i] = true ∧ t.Commands[i].IncludeInEnv = x) ∧
        ((∀ i (hi : i < t.Commands.length) (sti : LoopState σ),
            Request.stateAt sh w t i = some sti →
            Request.selected sti t.Commands[i] = true → t.Commands[i].IncludeInEnv ≠ x) →
          res.env.lookup x = t.Env.lookup x) := by
  obtain ⟨stl, hl, hp⟩ := stateAt_present sh w t t.Commands.length henv
  refine ⟨{ success := !stl.skipNonEssential, steps := stl.result, env := stl.env,
            world := stl.world }, ?_, hp, ?_⟩
  · rw [run_eq, hl]
    rfl
  · intro x
    obtain ⟨hkeep, hchg⟩ := env_frame_upto sh w t x _ (Nat.le_refl _) stl hl
    refine ⟨hkeep, hchg, ?_⟩
    intro hnone
    by_contra hne
    obtain ⟨i, hi, sti, h1, h2, h3⟩ := hchg hne
    exact hnone i hi sti h1 h2 h3

theorem env_frame_witness :
    ∃ res, Request.Run demoShell () exportJob = some res ∧ res.env.present = true ∧
      ∀ x,
        (∀ v, exportJob.Env.lookup x = some v → ∃ v2, res.env.lookup x = some v2) ∧
        (res.env.lookup x ≠ exportJob.Env.lookup x →
          ∃ i, ∃ (hi : i < exportJob.Commands.length), ∃ sti,
            Request.stateAt demoShell () exportJob i = some sti ∧
            Request.selected sti exportJob.Commands[i] = true ∧
            exportJob.Commands[i].IncludeInEnv = x) ∧
        ((∀ i (hi : i < exportJob.Commands.length) (sti : LoopState Unit),
            Request.stateAt demoShell () exportJob i = some sti →
            Request.selected sti exportJob.Commands[i] = true →
            exportJob.Commands[i].IncludeInEnv ≠ x) →
          res.env.lookup x = exportJob.Env.lookup x) :=
  env_frame demoShell () exportJob (by decide)

/-- An iteration on the store is the iteration on the command at that position, and it
leaves the slice as it was: its only writes go to the range variable. -/
theorem iterateCells_eq {σ : Type} (sh : Shell σ) (st : LoopState σ) (m : Store) (i : Nat)
    (c : Command) (hc : m.Commands[i]? = some c) :
    Request.iterateCells sh st m i =
      (Request.iterate sh st c).map (fun st1 =>
        (st1, { Commands := m.Commands,
                command := if Request.selected st c
                           then (Command.Run sh st.world c st.env).1.1 else c })) := by
  by_cases hsel : Request.selected st c = true
  · rcases hr : Command.Run sh st.world c st.env with ⟨⟨c1, err⟩, w1⟩
    simp only [Request.iterateCells, Store.read, hc, Store.write, hsel, if_true,
      Command.RunAt, hr, Request.iterate]
    split <;> rfl
  · simp only [Bool.not_eq_true] at hsel
    simp [Request.iterateCells, Store.read, hc, Store.write, hsel, Request.iterate]

/-- The loop on the store never changes the slice. -/
theorem loopCells_commands {σ : Type} (sh : Shell σ) (n : Nat) (st st2 : LoopState σ)
    (m m2 : Store) (i : Nat) (h : Request.loopCells sh (st, m) i n = some (st2, m2)) :
    m2.Commands = m.Commands := by
  induction n generalizing st m i with
  | zero =>
    simp only [Request.loopCells, Option.some.injEq, Prod.mk.injEq] at h
    rw [h.2]
  | succ n ih =>
    simp only [Request.loopCells] at h
    cases hc : m.Commands[i]? with
    | none => simp [Request.iterateCells, Store.read, hc] at h
    | some c =>
      rw [iterateCells_eq sh st m i c hc] at h
      cases hit : Request.iterate sh st c with
      | none => simp [hit] at h
      | some st1 =>
        simp only [hit, Option.map_some'] at h
        have h2 := ih _ _ _ h
        exact h2

/-- The loop on the store computes what the loop on the commands computes. -/
theorem loopCells_eq {σ : Type} (sh : Shell σ) (n : Nat) (st : LoopState σ) (m : Store)
    (i : Nat) (hin : i + n ≤ m.Commands.length) :
    (Request.loopCells sh (st, m) i n).map Prod.fst =
      Request.loop sh st ((m.Commands.drop i).take n) := by
  induction n generalizing st m i with
  | zero => simp [Request.loopCells, Request.loop]
  | succ n ih =>
    have hi : i < m.Commands.length := by omega
    have hc : m.Commands[i]? = some m.Commands[i] := List.getElem?_eq_getElem hi
    rw [List.drop_eq_getElem_cons hi, List.take_succ_cons]
    simp only [Request.loopCells, Request.loop]
    rw [iterateCells_eq sh st m i _ hc]
    cases hit : Request.iterate sh st m.Commands[i] with
    | none => simp
    | some st1 =>
      simp only [Option.map_some']
      exact ih st1 _ (i + 1) (by simpa using (by omega : i + 1 + n ≤ m.Commands.length))

/-- The store does express a run that changes the slice: `Command.Run` called on a pointer
to the first element, where the loop calls it on the range variable, marks that element
completed. -/
theorem runAt_element_writes_slice :
    (Command.RunAt demoShell () { Commands := [applyStep], command := {} } (Ref.element 0)
        Env.nil).map (fun p => p.1.1.Commands.map (fun c => c.Completed)) = some [true] ∧
      applyStep.Completed = false := by
  decide

/-- C19: `Request.Run` does not modify the job's step list. On the store, whatever the
steps do, a run that returns leaves the slice `t.Commands` equal to what it was before the
run, every field of every command included, because each call of `Command.Run` has the
range variable as its receiver; the results are in the returned result sequence, which is
the one `Request.Run` returns. With a present env the run returns. -/
theorem commands_unchanged {σ : Type} (sh : Shell σ) (w : σ) (t : Request) :
    (∀ res t1, Request.RunCells sh w t = some (res, t1) →
      t1.Commands = t.Commands ∧ t1.Env = res.env ∧ Request.Run sh w t = some res) ∧
    (Request.RunCells sh w t).map Prod.fst = Request.Run sh w t ∧
    (t.Env.present = true →
      ∃ res t1, Request.RunCells sh w t = some (res, t1) ∧ t1.Commands = t.Commands) := by
  have hmap : (Request.RunCells sh w t).map Prod.fst = Request.Run sh w t := by
    have h := loopCells_eq sh t.Commands.length (Request.start w t)
      { Commands := t.Commands, command := {} } 0 (by simp)
    simp only [List.drop_zero, List.take_length] at h
    unfold Request.RunCells Request.Run
    rw [← h]
    cases Request.loopCells sh (Request.start w t, { Commands := t.Commands, command := {} }) 0
      t.Commands.length <;> rfl
  have hframe : ∀ res t1, Request.RunCells sh w t = some (res, t1) →
      t1.Commands = t.Commands ∧ t1.Env = res.env ∧ Request.Run sh w t = some res := by
    intro res t1 h
    have hrun : Request.Run sh w t = some res := by
      rw [← hmap, h]
      rfl
    unfold Request.RunCells at h
    cases hl : Request.loopCells sh
        (Request.start w t, { Commands := t.Commands, command := {} }) 0
        t.Commands.length with
    | none => simp [hl] at h
    | some s =>
      obtain ⟨st, m⟩ := s
      simp only [hl, Option.some.injEq, Prod.mk.injEq] at h
      obtain ⟨h1, h2⟩ := h
      subst h1
      subst h2
      exact ⟨loopCells_commands sh _ _ st _ m 0 hl, rfl, hrun⟩
  refine ⟨hframe, hmap, ?_⟩
  intro henv
  obtain ⟨res, hres⟩ := run_total sh w t henv
  rw [← hmap] at hres
  cases hc : Request.RunCells sh w t with
  | none => simp [hc] at hres
  | some p =>
    obtain ⟨res1, t1⟩ := p
    exact ⟨res1, t1, rfl, (hframe res1 t1 hc).1⟩

theorem commands_unchanged_witness :
    ∃ res t1, Request.RunCells demoShell () failJob = some (res, t1) ∧
      t1.Commands = failJob.Commands :=
  (commands_unchanged demoShell () failJob).2.2 (by decide)

end TaskRunner
